import Mathlib

/-!
# Sudoku generator and uniqueness checker (`script.js`)

A shallow embedding of the puzzle core of `script.js`: the constraint checkers
`isSafe` and `isValidEntry`, the randomized backtracking generator
`fillBoard` / `generateFullBoard`, the solution counter `hasUniqueSolution`
and the reducer `generatePuzzle`.

A board is a 9x9 matrix of numbers, `0` standing for an empty cell.  JavaScript
index expressions `board[r][c]` are numbers that may run up to `9` in the
recursions, so cells are read and written through `Grid.get` / `Grid.set`,
which take natural-number indices.
-/

namespace Sudoku

/-- A 9x9 board of numbers; `0` is the empty cell. -/
abbrev Grid := Fin 9 → Fin 9 → Nat

/-- The read `board[r][c]`.  Outside the 9x9 range the script would read
`undefined`, which is different from every number the script compares it
with; the model uses `0` there, and no function below reads out of range when it
is called inside its contract. -/
def Grid.get (g : Grid) (r c : Nat) : Nat :=
  if h : r < 9 ∧ c < 9 then g ⟨r, h.1⟩ ⟨c, h.2⟩ else 0

/-- The assignment `board[r][c] = v`. -/
def Grid.set (g : Grid) (r c v : Nat) : Grid :=
  fun i j => if i.val = r ∧ j.val = c then v else g i j

/-- The copy `board.map(row => row.slice())`: a fresh board with the same cells. -/
def Grid.copy (g : Grid) : Grid := fun i j => g i j

/-- The board `Array.from({ length: 9 }, () => Array(9).fill(0))`. -/
def emptyBoard : Grid := fun _ _ => 0

/-- A board written as a list of rows (used for concrete boards). -/
def Grid.ofRows (rows : List (List Nat)) : Grid :=
  fun i j => (rows.getD i.val []).getD j.val 0

/-- Function `isSafe(board, row, col, num)` (script.js 29-38): the first loop scans row
`row` and column `col`, the nested loops scan the 3x3 box whose corner is
`(row - row % 3, col - col % 3)`; any hit returns `false`. -/
def isSafe (board : Grid) (row col num : Nat) : Bool :=
  (List.range 9).all (fun i => !(board.get row i == num || board.get i col == num)) &&
  (let boxRow := row - row % 3
   let boxCol := col - col % 3
   (List.range 3).all (fun i =>
     (List.range 3).all (fun j => !(board.get (boxRow + i) (boxCol + j) == num))))

/-- Function `isValidEntry(board, row, col, num)` (script.js 227-238): the same scans as
`isSafe`, each comparison guarded so that the cell `(row, col)` itself is
skipped. -/
def isValidEntry (board : Grid) (row col num : Nat) : Bool :=
  (List.range 9).all (fun i =>
    !(i != col && board.get row i == num) && !(i != row && board.get i col == num)) &&
  (let boxRow := row - row % 3
   let boxCol := col - col % 3
   (List.range 3).all (fun i =>
     (List.range 3).all (fun j =>
       !((boxRow + i != row || boxCol + j != col) &&
          board.get (boxRow + i) (boxCol + j) == num))))

/-- The result of a call of `solve`: the returned boolean, the board `bd` as the
call leaves it, and the value of the captured counter `count`. -/
abbrev SolveResult := Bool × Grid × Nat

/-- The `for (let num = 1; num <= 9; num++)` loop of `solve` (script.js 77-84),
run over the candidates still to be tried.  `next bd count` is the recursive call
`solve(bd, r, c + 1)`. -/
def solveLoop (next : Grid → Nat → Option SolveResult) (r c : Nat) :
    List Nat → Grid → Nat → Option SolveResult
  | [], bd, count => some (true, bd, count)
  | num :: rest, bd, count =>
    if isSafe bd r c num then
      match next (bd.set r c num) count with
      | none => none
      | some (ok, bd1, count1) =>
        if !ok then some (false, bd1.set r c 0, count1)
        else solveLoop next r c rest (bd1.set r c 0) count1
    else solveLoop next r c rest bd count

/-- The inner function `solve(bd, r, c)` of `hasUniqueSolution` (script.js 73-85),
with the captured variable `count` and the mutated board threaded through.  The
first argument bounds the recursion depth; `none` means the bound was reached. -/
def solve : Nat → Grid → Nat → Nat → Nat → Option SolveResult
  | 0, _, _, _, _ => none
  | fuel + 1, bd, r, c, count =>
    if r = 9 then some (decide (count + 1 < 2), bd, count + 1)
    else if c = 9 then solve fuel bd (r + 1) 0 count
    else if bd.get r c ≠ 0 then solve fuel bd r (c + 1) count
    else solveLoop (fun bd1 count1 => solve fuel bd1 r (c + 1) count1) r c
      (List.range' 1 9) bd count

/-- Function `hasUniqueSolution(board)` (script.js 71-88): `solve` runs on a copy from
`(0, 0)` with `count = 0`; the answer is `count === 1`.  The recursion of `solve`
is at most 91 calls deep (90 positions `(r, c)` with `r < 9`, `c <= 9`, and
`(9, 0)`). -/
def hasUniqueSolution (board : Grid) : Option Bool :=
  (solve 91 board.copy 0 0 0).map (fun res => res.2.2 == 1)

/-- The swap `[arr[i], arr[j]] = [arr[j], arr[i]]`. -/
def swap (arr : List Nat) (i j : Nat) : List Nat :=
  (arr.set i (arr.getD j 0)).set j (arr.getD i 0)

/-- The loop of `shuffle` (script.js 42-45) from index `i` down to 1.  `rand` is
the sequence of random draws and `n` the number of draws taken so far; the draw
`Math.floor(Math.random() * (i + 1))`, some integer in `0..i`, is `rand n % (i + 1)`. -/
def shuffleLoop (rand : Nat → Nat) : Nat → List Nat → Nat → List Nat × Nat
  | 0, arr, n => (arr, n)
  | i + 1, arr, n => shuffleLoop rand i (swap arr (i + 1) (rand n % (i + 1 + 1))) (n + 1)

/-- Function `shuffle(arr)` (script.js 41-47): returns the shuffled array and the number of
random draws taken so far. -/
def shuffle (rand : Nat → Nat) (arr : List Nat) (n : Nat) : List Nat × Nat :=
  shuffleLoop rand (arr.length - 1) arr n

/-- The result of a call of `fillBoard`: the returned boolean, the board as the
call leaves it, and the number of random draws taken so far. -/
abbrev FillResult := Bool × Grid × Nat

/-- The `for (let num of nums)` loop of `fillBoard` (script.js 18-25).
`next board n` is the recursive call `fillBoard(board, row, col + 1)`. -/
def fillLoop (next : Grid → Nat → Option FillResult) (row col : Nat) :
    List Nat → Grid → Nat → Option FillResult
  | [], board, n => some (false, board, n)
  | num :: rest, board, n =>
    if isSafe board row col num then
      match next (board.set row col num) n with
      | none => none
      | some (ok, board1, n1) =>
        if ok then some (true, board1, n1)
        else fillLoop next row col rest (board1.set row col 0) n1
    else fillLoop next row col rest board n

/-- Function `fillBoard(board, row, col)` (script.js 13-26), with the mutated board and the
position in the sequence of random draws threaded through.  The second argument
bounds the recursion depth; `none` means the bound was reached. -/
def fillBoard (rand : Nat → Nat) : Nat → Grid → Nat → Nat → Nat → Option FillResult
  | 0, _, _, _, _ => none
  | fuel + 1, board, row, col, n =>
    if row = 9 then some (true, board, n)
    else if col = 9 then fillBoard rand fuel board (row + 1) 0 n
    else
      fillLoop (fun board1 n1 => fillBoard rand fuel board1 row (col + 1) n1) row col
        (shuffle rand [1, 2, 3, 4, 5, 6, 7, 8, 9] n).1 board
        (shuffle rand [1, 2, 3, 4, 5, 6, 7, 8, 9] n).2

/-- Function `generateFullBoard()` (script.js 6-10): the result of `fillBoard` is dropped
and the board is returned.  The recursion of `fillBoard` is at most 91 calls
deep. -/
def generateFullBoard (rand : Nat → Nat) : Option Grid :=
  (fillBoard rand 91 emptyBoard 0 0 0).map (fun res => res.2.1)

/-- One pass through the body of the `while` loop of `generatePuzzle`
(script.js 54-65) with the picked cell `(i, j)`: the new board and the new value
of `removed`. -/
def puzzleStep (puzzle : Grid) (removed i j : Nat) : Option (Grid × Nat) :=
  if puzzle.get i j ≠ 0 then
    match hasUniqueSolution (puzzle.set i j 0) with
    | none => none
    | some unique =>
      if !unique then some ((puzzle.set i j 0).set i j (puzzle.get i j), removed)
      else some (puzzle.set i j 0, removed - 1)
  else some (puzzle, removed)

/-- The `while (removed > 0)` loop of `generatePuzzle` run on a finite sequence of
random picks `(i, j)`: the board and the counter `removed` at the loop head
reached when the picks are used up or the loop has exited. -/
def puzzleRun : List (Nat × Nat) → Grid → Nat → Option (Grid × Nat)
  | [], puzzle, removed => some (puzzle, removed)
  | pick :: rest, puzzle, removed =>
    if removed > 0 then
      match puzzleStep puzzle removed pick.1 pick.2 with
      | none => none
      | some (puzzle1, removed1) => puzzleRun rest puzzle1 removed1
    else some (puzzle, removed)

/-- Function `generatePuzzle(fullBoard, clues)` (script.js 50-68) on a sequence of random
picks: the returned puzzle when the loop exits on these picks, `none` when it is
still running after the last of them. -/
def generatePuzzle (fullBoard : Grid) (clues : Nat) (picks : List (Nat × Nat)) :
    Option Grid :=
  match puzzleRun picks fullBoard.copy (81 - clues) with
  | some (puzzle, 0) => some puzzle
  | _ => none

/-- The number of nonzero cells of a board. -/
def nonzeroCount (g : Grid) : Nat :=
  (Finset.univ.filter (fun p : Fin 9 × Fin 9 => g p.1 p.2 ≠ 0)).card

/-! ### Boards as arrays of row arrays

JavaScript arrays are objects: a board is an array of references to nine row
arrays, and `bd[r][c] = v` changes a row array in place for everyone who holds a
reference to it.  To state what a call does to the arrays of its caller, the
functions below model the rows as entries of a store and a board as the list of
the store positions of its rows. -/

/-- The store of row arrays; a row array is identified by its position. -/
abbrev Heap := List (List Nat)

/-- A board as an array of references to its row arrays. -/
abbrev BoardRef := List Nat

/-- The read `board[r][c]` through the store. -/
def Heap.read (h : Heap) (board : BoardRef) (r c : Nat) : Nat :=
  match board[r]? with
  | none => 0
  | some a => (h.getD a []).getD c 0

/-- The assignment `board[r][c] = v`: the row array is changed in place. -/
def Heap.write (h : Heap) (board : BoardRef) (r c v : Nat) : Heap :=
  match board[r]? with
  | none => h
  | some a => h.set a ((h.getD a []).set c v)

/-- The 9x9 matrix of values a board holds in a store. -/
def Heap.grid (h : Heap) (board : BoardRef) : Grid :=
  fun i j => h.read board i.val j.val

/-- The copy `board.map(row => row.slice())`: every row is copied into a new row
array, and the result is the array of the new references. -/
def Heap.copyBoard (h : Heap) (board : BoardRef) : Heap × BoardRef :=
  (h ++ board.map (fun a => h.getD a []), List.range' h.length board.length)

/-- The result of a call of `solve` on a store: the returned boolean, the store
as the call leaves it, and the value of the captured counter `count`. -/
abbrev SolveRefResult := Bool × Heap × Nat

/-- The `for` loop of `solve` (script.js 77-84) on a store; see `solveLoop`. -/
def solveRefLoop (next : Heap → Nat → Option SolveRefResult) (bd : BoardRef) (r c : Nat) :
    List Nat → Heap → Nat → Option SolveRefResult
  | [], h, count => some (true, h, count)
  | num :: rest, h, count =>
    if isSafe (h.grid bd) r c num then
      match next (h.write bd r c num) count with
      | none => none
      | some (ok, h1, count1) =>
        if !ok then some (false, h1.write bd r c 0, count1)
        else solveRefLoop next bd r c rest (h1.write bd r c 0) count1
    else solveRefLoop next bd r c rest h count

/-- The function `solve(bd, r, c)` (script.js 73-85) on a store, where `bd` is a
reference and every assignment `bd[r][c] = ...` is an update in place; see
`solve`. -/
def solveRef : Nat → Heap → BoardRef → Nat → Nat → Nat → Option SolveRefResult
  | 0, _, _, _, _, _ => none
  | fuel + 1, h, bd, r, c, count =>
    if r = 9 then some (decide (count + 1 < 2), h, count + 1)
    else if c = 9 then solveRef fuel h bd (r + 1) 0 count
    else if h.read bd r c ≠ 0 then solveRef fuel h bd r (c + 1) count
    else solveRefLoop (fun h1 count1 => solveRef fuel h1 bd r (c + 1) count1) bd r c
      (List.range' 1 9) h count

/-- Function `hasUniqueSolution(board)` (script.js 71-88) on a store: the returned boolean
and the store after the call. -/
def hasUniqueSolutionRef (h : Heap) (board : BoardRef) : Option (Bool × Heap) :=
  (solveRef 91 (h.copyBoard board).1 (h.copyBoard board).2 0 0 0).map
    (fun res => (res.2.2 == 1, res.2.1))

/-- The reference `board` denotes a 9x9 board in the store `h`: nine different
row arrays of the store, each of length 9. -/
def Heap.HoldsBoard (h : Heap) (board : BoardRef) : Prop :=
  board.length = 9 ∧ board.Nodup ∧ ∀ a ∈ board, a < h.length ∧ (h.getD a []).length = 9

/-- The store `h2` has the row arrays of `h1`, unchanged outside the rows of
`board`. -/
def Heap.SameOutside (h1 h2 : Heap) (board : BoardRef) : Prop :=
  h2.length = h1.length ∧ ∀ a, a ∉ board → h2.getD a [] = h1.getD a []

/-- A store holding the rows of the sample board, one cell of row 7 emptied. -/
def sampleHeap : Heap :=
  [[1,2,3,4,5,6,7,8,9],
   [4,5,6,7,8,9,1,2,3],
   [7,8,9,1,2,3,4,5,6],
   [2,3,4,5,6,7,8,9,1],
   [5,6,7,8,9,1,2,3,4],
   [8,9,1,2,3,4,5,6,7],
   [3,4,5,6,7,8,9,1,2],
   [6,7,8,9,1,2,3,4,0],
   [9,1,2,3,4,5,6,7,8]]

/-- A solved board used for concrete evaluations. -/
def sampleSolved : Grid := Grid.ofRows
  [[1,2,3,4,5,6,7,8,9],
   [4,5,6,7,8,9,1,2,3],
   [7,8,9,1,2,3,4,5,6],
   [2,3,4,5,6,7,8,9,1],
   [5,6,7,8,9,1,2,3,4],
   [8,9,1,2,3,4,5,6,7],
   [3,4,5,6,7,8,9,1,2],
   [6,7,8,9,1,2,3,4,5],
   [9,1,2,3,4,5,6,7,8]]

/-! ## The Sudoku rules -/

/-- Cell `(i, j)` lies in the row, the column or the 3x3 box of cell `(r, c)`. -/
def sameUnit (r c i j : Nat) : Prop :=
  i = r ∨ j = c ∨ (i / 3 = r / 3 ∧ j / 3 = c / 3)

instance (r c i j : Nat) : Decidable (sameUnit r c i j) := by
  unfold sameUnit; infer_instance

/-- The values of row `r`, left to right. -/
def rowVals (g : Grid) (r : Nat) : List Nat :=
  (List.range 9).map (fun c => g.get r c)

/-- The values of column `c`, top to bottom. -/
def colVals (g : Grid) (c : Nat) : List Nat :=
  (List.range 9).map (fun r => g.get r c)

/-- The values of the 3x3 box number `b` (boxes numbered row by row). -/
def boxVals (g : Grid) (b : Nat) : List Nat :=
  (List.range 9).map (fun i => g.get (3 * (b / 3) + i / 3) (3 * (b % 3) + i % 3))

/-- The list contains each of the values 1..9 exactly once. -/
def EachOnce (l : List Nat) : Prop :=
  ∀ v ∈ List.range' 1 9, l.count v = 1

instance (l : List Nat) : Decidable (EachOnce l) := by
  unfold EachOnce; infer_instance

/-- A complete rule-valid grid: every row, every column and every 3x3 box contains
each of 1..9 exactly once. -/
def Valid (g : Grid) : Prop :=
  ∀ i < 9, EachOnce (rowVals g i) ∧ EachOnce (colVals g i) ∧ EachOnce (boxVals g i)

instance (g : Grid) : Decidable (Valid g) := by
  unfold Valid; infer_instance

/-- The grid `G` agrees with `bd` on the nonzero cells of `bd`. -/
def Agrees (bd G : Grid) : Prop :=
  ∀ r c : Fin 9, bd r c ≠ 0 → G r c = bd r c

instance (bd G : Grid) : Decidable (Agrees bd G) := by
  unfold Agrees; infer_instance

/-- No nonzero value of `bd` occurs twice in a row, a column or a 3x3 box. -/
def Consistent (bd : Grid) : Prop :=
  ∀ r c i j : Fin 9, sameUnit r c i j → (i ≠ r ∨ j ≠ c) → bd r c ≠ 0 → bd i j ≠ bd r c

/-- The cells from row-major index `k` on are empty. -/
def EmptyFrom (k : Nat) (board : Grid) : Prop :=
  ∀ i j : Fin 9, k ≤ 9 * i.val + j.val → board i j = 0

/-- The boards reached by the search from the cell of row-major index `81 - m`:
a filled cell is stepped over; an empty one takes every candidate in `1..9` that
passes `isSafe` on the board as it stands. -/
def sols : Nat → Grid → List Grid
  | 0, bd => [bd]
  | m + 1, bd =>
    if bd.get ((80 - m) / 9) ((80 - m) % 9) ≠ 0 then sols m bd
    else ((List.range' 1 9).filter (fun v => isSafe bd ((80 - m) / 9) ((80 - m) % 9) v)).flatMap
      (fun v => sols m (bd.set ((80 - m) / 9) ((80 - m) % 9) v))

/-- The grid `G` completes `bd` from the cell of row-major index `k` on: `G` keeps every
cell that is before index `k` or filled in `bd`; every other cell holds a value in
`1..9` that no other cell of its row, column or box holds. -/
def Fills (k : Nat) (bd G : Grid) : Prop :=
  (∀ r c : Fin 9, (9 * r.val + c.val < k ∨ bd r c ≠ 0) → G r c = bd r c) ∧
  (∀ r c : Fin 9, k ≤ 9 * r.val + c.val → bd r c = 0 → 1 ≤ G r c ∧ G r c ≤ 9) ∧
  (∀ r c i j : Fin 9, k ≤ 9 * r.val + c.val → bd r c = 0 →
    sameUnit r c i j → (i ≠ r ∨ j ≠ c) → G i j ≠ G r c)

/-- The givens of `bd` are kept by `G`, every cell empty in `bd` holds a value in
`1..9` in `G`, and that value occurs in no other cell of its row, column or box.
(Two givens of `bd` may still clash: the search never compares them.) -/
def Completes (bd G : Grid) : Prop :=
  Agrees bd G ∧
  (∀ r c : Fin 9, bd r c = 0 → 1 ≤ G r c ∧ G r c ≤ 9) ∧
  (∀ r c i j : Fin 9, bd r c = 0 → sameUnit r c i j → (i ≠ r ∨ j ≠ c) → G i j ≠ G r c)

/-- The board `g` with its rows relabelled by `p`: row `p r` of the result is row
`r` of `g`. -/
def permuteRows (p : Equiv.Perm (Fin 9)) (g : Grid) : Grid :=
  fun i j => g (p.symm i) j

/-- The board `g` with its columns relabelled by `p`. -/
def permuteCols (p : Equiv.Perm (Fin 9)) (g : Grid) : Grid :=
  fun i j => g i (p.symm j)

/-- A full board whose givens clash everywhere. -/
def allOnes : Grid := fun _ _ => 1

/-- The sample board with cell `(0, 0)` emptied and the two cells holding `2` in
its row and column overwritten, so that both `1` and `2` fit the empty cell. -/
def twoCandidates : Grid :=
  ((sampleSolved.set 0 0 0).set 0 1 3).set 3 0 3

/-! ## Reading and writing cells -/

theorem Grid.get_fin (g : Grid) (i j : Fin 9) : g.get i.val j.val = g i j := by
  simp [Grid.get, i.isLt, j.isLt]

theorem Grid.get_of_lt (g : Grid) {r c : Nat} (hr : r < 9) (hc : c < 9) :
    g.get r c = g ⟨r, hr⟩ ⟨c, hc⟩ := by
  simp [Grid.get, hr, hc]

theorem Grid.get_set (g : Grid) (r c v r1 c1 : Nat) :
    (g.set r c v).get r1 c1 =
      if r1 = r ∧ c1 = c ∧ r1 < 9 ∧ c1 < 9 then v else g.get r1 c1 := by
  unfold Grid.get Grid.set
  by_cases h : r1 < 9 ∧ c1 < 9
  · by_cases h2 : r1 = r ∧ c1 = c
    · simp [h, h2, h2.1 ▸ h.1, h2.2 ▸ h.2]
    · have h3 : ¬ (r1 = r ∧ c1 = c ∧ r1 < 9 ∧ c1 < 9) := fun h4 => h2 ⟨h4.1, h4.2.1⟩
      rw [dif_pos h, dif_pos h, if_neg h3]
      exact if_neg h2
  · have h3 : ¬ (r1 = r ∧ c1 = c ∧ r1 < 9 ∧ c1 < 9) := fun h4 => h h4.2.2
    rw [dif_neg h, dif_neg h, if_neg h3]

theorem Grid.ext_get {g1 g2 : Grid}
    (h : ∀ r c, r < 9 → c < 9 → g1.get r c = g2.get r c) : g1 = g2 := by
  funext i j
  have := h i.val j.val i.isLt j.isLt
  simpa [Grid.get_fin] using this

theorem Grid.copy_eq (g : Grid) : g.copy = g := rfl

/-- Clearing again a cell that was empty before a value was put in gives the
board back. -/
theorem Grid.set_set_zero (g : Grid) (r c v : Nat) (h : g.get r c = 0) :
    (g.set r c v).set r c 0 = g := by
  apply Grid.ext_get
  intro r1 c1 h1 h2
  rw [Grid.get_set, Grid.get_set]
  by_cases h3 : r1 = r ∧ c1 = c
  · obtain ⟨rfl, rfl⟩ := h3
    simp [h1, h2, h]
  · have h4 : ¬ (r1 = r ∧ c1 = c ∧ r1 < 9 ∧ c1 < 9) := fun h5 => h3 ⟨h5.1, h5.2.1⟩
    simp [h4]

/-! ## The constraint checkers -/

theorem isSafe_iff_loops (g : Grid) (r c v : Nat) :
    isSafe g r c v = true ↔
      (∀ i < 9, g.get r i ≠ v ∧ g.get i c ≠ v) ∧
      (∀ i < 3, ∀ j < 3, g.get (r - r % 3 + i) (c - c % 3 + j) ≠ v) := by
  simp [isSafe, List.all_eq_true, List.mem_range, not_or]

theorem isSafe_iff (g : Grid) (r c v : Nat) (hr : r < 9) (hc : c < 9) :
    isSafe g r c v = true ↔
      ∀ i j, i < 9 → j < 9 → sameUnit r c i j → g.get i j ≠ v := by
  rw [isSafe_iff_loops]
  constructor
  · rintro ⟨h1, h2⟩ i j hi hj hu
    rcases hu with rfl | rfl | ⟨hb1, hb2⟩
    · exact (h1 j hj).1
    · exact (h1 i hi).2
    · have := h2 (i - (r - r % 3)) (by omega) (j - (c - c % 3)) (by omega)
      have e1 : r - r % 3 + (i - (r - r % 3)) = i := by omega
      have e2 : c - c % 3 + (j - (c - c % 3)) = j := by omega
      rwa [e1, e2] at this
  · intro h
    refine ⟨fun i hi => ⟨h r i hr hi (Or.inl rfl), h i c hi hc (Or.inr (Or.inl rfl))⟩, ?_⟩
    intro i hi j hj
    exact h _ _ (by omega) (by omega) (Or.inr (Or.inr ⟨by omega, by omega⟩))

theorem isValidEntry_iff_loops (g : Grid) (r c v : Nat) :
    isValidEntry g r c v = true ↔
      (∀ i < 9, (i ≠ c → g.get r i ≠ v) ∧ (i ≠ r → g.get i c ≠ v)) ∧
      (∀ i < 3, ∀ j < 3, (r - r % 3 + i ≠ r ∨ c - c % 3 + j ≠ c) →
        g.get (r - r % 3 + i) (c - c % 3 + j) ≠ v) := by
  simp only [isValidEntry, List.all_eq_true, List.mem_range, Bool.and_eq_true,
    Bool.not_eq_true', Bool.and_eq_false_imp, bne_iff_ne, beq_eq_false_iff_ne, ne_eq,
    Bool.or_eq_true]

theorem isValidEntry_iff (g : Grid) (r c v : Nat) (hr : r < 9) (hc : c < 9) :
    isValidEntry g r c v = true ↔
      ∀ i j, i < 9 → j < 9 → sameUnit r c i j → (i ≠ r ∨ j ≠ c) → g.get i j ≠ v := by
  rw [isValidEntry_iff_loops]
  constructor
  · rintro ⟨h1, h2⟩ i j hi hj hu hne
    rcases hu with rfl | rfl | ⟨hb1, hb2⟩
    · exact (h1 j hj).1 (by omega)
    · exact (h1 i hi).2 (by omega)
    · have := h2 (i - (r - r % 3)) (by omega) (j - (c - c % 3)) (by omega)
      have e1 : r - r % 3 + (i - (r - r % 3)) = i := by omega
      have e2 : c - c % 3 + (j - (c - c % 3)) = j := by omega
      rw [e1, e2] at this
      exact this hne
  · intro h
    refine ⟨fun i hi => ⟨fun hne => h r i hr hi (Or.inl rfl) (Or.inr hne),
      fun hne => h i c hi hc (Or.inr (Or.inl rfl)) (Or.inl hne)⟩, ?_⟩
    intro i hi j hj hne
    exact h _ _ (by omega) (by omega) (Or.inr (Or.inr ⟨by omega, by omega⟩)) hne

theorem isSafe_iff_fin (g : Grid) (r c : Fin 9) (v : Nat) :
    isSafe g r c v = true ↔ ∀ i j : Fin 9, sameUnit r c i j → g i j ≠ v := by
  rw [isSafe_iff g r c v r.isLt c.isLt]
  constructor
  · intro h i j hu
    simpa [Grid.get_fin] using h i j i.isLt j.isLt hu
  · intro h i j hi hj hu
    simpa [Grid.get_of_lt g hi hj] using h ⟨i, hi⟩ ⟨j, hj⟩ hu

theorem isValidEntry_iff_fin (g : Grid) (r c : Fin 9) (v : Nat) :
    isValidEntry g r c v = true ↔
      ∀ i j : Fin 9, sameUnit r c i j → (i ≠ r ∨ j ≠ c) → g i j ≠ v := by
  rw [isValidEntry_iff g r c v r.isLt c.isLt]
  constructor
  · intro h i j hu hne
    have hne2 : (i.val ≠ r.val ∨ j.val ≠ c.val) := by
      rcases hne with h1 | h1
      · exact Or.inl (fun e => h1 (Fin.ext e))
      · exact Or.inr (fun e => h1 (Fin.ext e))
    simpa [Grid.get_fin] using h i j i.isLt j.isLt hu hne2
  · intro h i j hi hj hu hne
    have hne2 : ((⟨i, hi⟩ : Fin 9) ≠ r ∨ (⟨j, hj⟩ : Fin 9) ≠ c) := by
      rcases hne with h1 | h1
      · exact Or.inl (fun e => h1 (by rw [← e]))
      · exact Or.inr (fun e => h1 (by rw [← e]))
    simpa [Grid.get_of_lt g hi hj] using h ⟨i, hi⟩ ⟨j, hj⟩ hu hne2

/-! ## The boards counted by the search

`sols m bd` lists, in the order in which `solve` reaches them, the full boards
that the search started at the cell with row-major index `81 - m` arrives at.
`Fills k bd G` describes these boards without reference to the search. -/

theorem fills_last (bd G : Grid) : Fills 81 bd G ↔ G = bd := by
  constructor
  · intro h
    funext r c
    exact h.1 r c (Or.inl (by omega))
  · rintro rfl
    refine ⟨fun _ _ _ => rfl, ?_, ?_⟩
    · intro r c h; omega
    · intro r c i j h; omega

theorem fills_skip (k : Nat) (_hk : k < 81) (bd G : Grid)
    (h0 : bd.get (k / 9) (k % 9) ≠ 0) : Fills k bd G ↔ Fills (k + 1) bd G := by
  have hcell : ∀ r c : Fin 9, 9 * r.val + c.val = k → bd r c ≠ 0 := by
    intro r c e
    have e1 : k / 9 = r.val := by omega
    have e2 : k % 9 = c.val := by omega
    rw [e1, e2, Grid.get_fin] at h0
    exact h0
  constructor
  · rintro ⟨h1, h2, h3⟩
    refine ⟨?_, fun r c hk2 => h2 r c (by omega), fun r c i j hk2 => h3 r c i j (by omega)⟩
    intro r c h
    rcases h with h | h
    · by_cases e : 9 * r.val + c.val = k
      · exact h1 r c (Or.inr (hcell r c e))
      · exact h1 r c (Or.inl (by omega))
    · exact h1 r c (Or.inr h)
  · rintro ⟨h1, h2, h3⟩
    refine ⟨?_, ?_, ?_⟩
    · intro r c h
      rcases h with h | h
      · exact h1 r c (Or.inl (by omega))
      · exact h1 r c (Or.inr h)
    · intro r c hk2 hz
      have : 9 * r.val + c.val ≠ k := fun e => hcell r c e hz
      exact h2 r c (by omega) hz
    · intro r c i j hk2 hz
      have : 9 * r.val + c.val ≠ k := fun e => hcell r c e hz
      exact h3 r c i j (by omega) hz

theorem sameUnit_symm {r c i j : Nat} (h : sameUnit r c i j) : sameUnit i j r c := by
  rcases h with h | h | ⟨h1, h2⟩
  · exact Or.inl h.symm
  · exact Or.inr (Or.inl h.symm)
  · exact Or.inr (Or.inr ⟨h1.symm, h2.symm⟩)

theorem fills_place (k : Nat) (hk : k < 81) (bd G : Grid)
    (h0 : bd.get (k / 9) (k % 9) = 0) :
    Fills k bd G ↔
      ∃ v, (1 ≤ v ∧ v ≤ 9) ∧ isSafe bd (k / 9) (k % 9) v = true ∧
        Fills (k + 1) (bd.set (k / 9) (k % 9) v) G := by
  have hr : k / 9 < 9 := by omega
  have hc : k % 9 < 9 := by omega
  have hcell : ∀ r c : Fin 9, 9 * r.val + c.val = k ↔ (r.val = k / 9 ∧ c.val = k % 9) := by
    intro r c; omega
  have hz : bd ⟨k / 9, hr⟩ ⟨k % 9, hc⟩ = 0 := by rwa [Grid.get_of_lt bd hr hc] at h0
  have hsafe := isSafe_iff_fin bd ⟨k / 9, hr⟩ ⟨k % 9, hc⟩
  simp only at hsafe
  constructor
  · rintro ⟨h1, h2, h3⟩
    refine ⟨G ⟨k / 9, hr⟩ ⟨k % 9, hc⟩, h2 _ _ (by simp; omega) hz, ?_, ?_, ?_, ?_⟩
    · rw [hsafe]
      intro i j hu e
      by_cases hij : i = ⟨k / 9, hr⟩ ∧ j = ⟨k % 9, hc⟩
      · rw [hij.1, hij.2, hz] at e
        have := (h2 ⟨k / 9, hr⟩ ⟨k % 9, hc⟩ (by simp; omega) hz).1
        omega
      · have hb : bd i j ≠ 0 := by
          have := (h2 ⟨k / 9, hr⟩ ⟨k % 9, hc⟩ (by simp; omega) hz).1
          omega
        have hG := h1 i j (Or.inr hb)
        refine h3 ⟨k / 9, hr⟩ ⟨k % 9, hc⟩ i j (by simp; omega) hz hu ?_ (by rw [hG, e])
        by_contra hcon
        push_neg at hcon
        exact hij hcon
    · intro r c h
      by_cases e : r.val = k / 9 ∧ c.val = k % 9
      · have er : r = ⟨k / 9, hr⟩ := Fin.ext e.1
        have ec : c = ⟨k % 9, hc⟩ := Fin.ext e.2
        subst er ec
        simp [Grid.set]
      · have hne : 9 * r.val + c.val ≠ k := fun e2 => e ((hcell r c).1 e2)
        have hs : (bd.set (k / 9) (k % 9) (G ⟨k / 9, hr⟩ ⟨k % 9, hc⟩)) r c = bd r c := by
          simp [Grid.set, e]
        rw [hs] at h ⊢
        rcases h with h | h
        · exact h1 r c (Or.inl (by omega))
        · exact h1 r c (Or.inr h)
    · intro r c hk2 hzz
      have e : ¬ (r.val = k / 9 ∧ c.val = k % 9) := fun e => by
        have := (hcell r c).2 e; omega
      have hs : (bd.set (k / 9) (k % 9) (G ⟨k / 9, hr⟩ ⟨k % 9, hc⟩)) r c = bd r c := by
        simp [Grid.set, e]
      rw [hs] at hzz
      exact h2 r c (by omega) hzz
    · intro r c i j hk2 hzz
      have e : ¬ (r.val = k / 9 ∧ c.val = k % 9) := fun e => by
        have := (hcell r c).2 e; omega
      have hs : (bd.set (k / 9) (k % 9) (G ⟨k / 9, hr⟩ ⟨k % 9, hc⟩)) r c = bd r c := by
        simp [Grid.set, e]
      rw [hs] at hzz
      exact h3 r c i j (by omega) hzz
  · rintro ⟨v, hv, hs, h1, h2, h3⟩
    rw [hsafe] at hs
    have hset : ∀ r c : Fin 9, ¬ (r.val = k / 9 ∧ c.val = k % 9) →
        (bd.set (k / 9) (k % 9) v) r c = bd r c := by
      intro r c e
      simp [Grid.set, e]
    have hGk : G ⟨k / 9, hr⟩ ⟨k % 9, hc⟩ = v := by
      have := h1 ⟨k / 9, hr⟩ ⟨k % 9, hc⟩ (Or.inl (by simp; omega))
      simpa [Grid.set] using this
    refine ⟨?_, ?_, ?_⟩
    · intro r c h
      by_cases e : r.val = k / 9 ∧ c.val = k % 9
      · have er : r = ⟨k / 9, hr⟩ := Fin.ext e.1
        have ec : c = ⟨k % 9, hc⟩ := Fin.ext e.2
        subst er ec
        rcases h with h | h
        · simp at h; omega
        · exact absurd hz h
      · have := h1 r c (by
          rw [hset r c e]
          rcases h with h | h
          · exact Or.inl (by omega)
          · exact Or.inr h)
        rwa [hset r c e] at this
    · intro r c hk2 hzz
      by_cases e : r.val = k / 9 ∧ c.val = k % 9
      · have er : r = ⟨k / 9, hr⟩ := Fin.ext e.1
        have ec : c = ⟨k % 9, hc⟩ := Fin.ext e.2
        subst er ec
        rw [hGk]; exact hv
      · have hne : 9 * r.val + c.val ≠ k := fun e2 => e ((hcell r c).1 e2)
        exact h2 r c (by omega) (by rwa [hset r c e])
    · intro r c i j hk2 hzz hu hne
      by_cases e : r.val = k / 9 ∧ c.val = k % 9
      · have er : r = ⟨k / 9, hr⟩ := Fin.ext e.1
        have ec : c = ⟨k % 9, hc⟩ := Fin.ext e.2
        subst er ec
        rw [hGk]
        have e2 : ¬ (i.val = k / 9 ∧ j.val = k % 9) := by
          rintro ⟨a, b⟩
          rcases hne with hne | hne
          · exact hne (Fin.ext a)
          · exact hne (Fin.ext b)
        by_cases hb : bd i j = 0
        · have hidx : 9 * i.val + j.val ≠ k := fun e3 => e2 ((hcell i j).1 e3)
          by_cases hlt : 9 * i.val + j.val < k
          · have := h1 i j (Or.inl (by omega))
            rw [hset i j e2, hb] at this
            rw [this]; omega
          · have := h3 i j ⟨k / 9, hr⟩ ⟨k % 9, hc⟩ (by omega) (by rwa [hset i j e2])
              (sameUnit_symm hu) (by
                rcases hne with hne | hne
                · exact Or.inl (Ne.symm hne)
                · exact Or.inr (Ne.symm hne))
            rw [hGk] at this
            exact Ne.symm this
        · have := h1 i j (Or.inr (by rwa [hset i j e2]))
          rw [hset i j e2] at this
          rw [this]
          exact hs i j hu
      · have hne2 : 9 * r.val + c.val ≠ k := fun e2 => e ((hcell r c).1 e2)
        exact h3 r c i j (by omega) (by rwa [hset r c e]) hu hne

theorem mem_sols (m : Nat) (hm : m ≤ 81) (bd G : Grid) :
    G ∈ sols m bd ↔ Fills (81 - m) bd G := by
  induction m generalizing bd with
  | zero => simp [sols, fills_last]
  | succ m ih =>
    have e1 : 81 - (m + 1) = 80 - m := by omega
    have e2 : 81 - m = (80 - m) + 1 := by omega
    rw [e1]
    unfold sols
    by_cases h0 : bd.get ((80 - m) / 9) ((80 - m) % 9) ≠ 0
    · rw [if_pos h0, ih (by omega), e2]
      exact (fills_skip (80 - m) (by omega) bd G h0).symm
    · rw [if_neg h0]
      push_neg at h0
      rw [fills_place (80 - m) (by omega) bd G h0]
      simp only [List.mem_flatMap, List.mem_filter, List.mem_range'_1]
      constructor
      · rintro ⟨v, ⟨hv, hs⟩, hG⟩
        exact ⟨v, ⟨hv.1, by omega⟩, hs, by rw [← e2]; exact (ih (by omega) _).1 hG⟩
      · rintro ⟨v, hv, hs, hG⟩
        exact ⟨v, ⟨⟨hv.1, by omega⟩, hs⟩, (ih (by omega) _).2 (by rw [e2]; exact hG)⟩

theorem nodup_sols (m : Nat) (hm : m ≤ 81) (bd : Grid) : (sols m bd).Nodup := by
  induction m generalizing bd with
  | zero => simp [sols]
  | succ m ih =>
    unfold sols
    by_cases h0 : bd.get ((80 - m) / 9) ((80 - m) % 9) ≠ 0
    · rw [if_pos h0]; exact ih (by omega) bd
    · rw [if_neg h0]
      rw [List.nodup_flatMap]
      refine ⟨fun v _ => ih (by omega) _, ?_⟩
      apply List.Nodup.pairwise_of_forall_ne
      · exact (List.nodup_range' 1 9).filter _
      · intro a _ b _ hab
        show List.Disjoint _ _
        intro G hGa hGb
        rw [mem_sols m (by omega)] at hGa hGb
        have hr : (80 - m) / 9 < 9 := by omega
        have hc : (80 - m) % 9 < 9 := by omega
        have ha := hGa.1 ⟨(80 - m) / 9, hr⟩ ⟨(80 - m) % 9, hc⟩ (Or.inl (by simp; omega))
        have hb := hGb.1 ⟨(80 - m) / 9, hr⟩ ⟨(80 - m) % 9, hc⟩ (Or.inl (by simp; omega))
        simp [Grid.set] at ha hb
        exact hab (ha.symm.trans hb)

/-- A list without repetitions has length one exactly when it has exactly one
member. -/
theorem length_eq_one_iff_existsUnique {α : Type} (l : List α) (hl : l.Nodup) :
    l.length = 1 ↔ ∃! a, a ∈ l := by
  constructor
  · intro h
    obtain ⟨a, rfl⟩ := List.length_eq_one.1 h
    exact ⟨a, by simp, fun b hb => by simpa using hb⟩
  · rintro ⟨a, ha, huniq⟩
    match l, hl, ha, huniq with
    | [], _, ha, _ => simp at ha
    | [_], _, _, _ => rfl
    | x :: y :: t, hl, _, huniq =>
      have hx := huniq x (by simp)
      have hy := huniq y (by simp)
      have : x ≠ y := by
        intro e
        rw [List.nodup_cons] at hl
        exact hl.1 (by simp [e])
      exact absurd (hx.trans hy.symm) this

/-! ## `solve` against the enumeration -/

/-- The loop of `solve` over the candidates `nums`, when every recursive call
behaves as the enumeration says: the counter grows by the number of boards
reached, capped at 2, the loop reports whether the cap was not hit, and the board
comes back as it was. -/
theorem solveLoop_spec (next : Grid → Nat → Option SolveResult) (m r c : Nat)
    (hnext : ∀ bd count, count ≤ 1 → next bd count =
      some (decide (count + (sols m bd).length < 2), bd, min (count + (sols m bd).length) 2))
    (nums : List Nat) (bd : Grid) (h0 : bd.get r c = 0) (count : Nat) (hcount : count ≤ 1) :
    solveLoop next r c nums bd count =
      some (decide (count + ((nums.filter (fun v => isSafe bd r c v)).flatMap
          (fun v => sols m (bd.set r c v))).length < 2), bd,
        min (count + ((nums.filter (fun v => isSafe bd r c v)).flatMap
          (fun v => sols m (bd.set r c v))).length) 2) := by
  induction nums generalizing count with
  | nil => simp [solveLoop]; omega
  | cons num rest ih =>
    unfold solveLoop
    by_cases hs : isSafe bd r c num = true
    · rw [if_pos hs, hnext _ _ hcount]
      simp only [List.filter_cons, hs, if_true, List.flatMap_cons, List.length_append]
      by_cases hlt : count + (sols m (bd.set r c num)).length < 2
      · have hmin : min (count + (sols m (bd.set r c num)).length) 2 =
            count + (sols m (bd.set r c num)).length := by omega
        simp only [hlt, decide_True, Bool.not_true, Bool.false_eq_true, if_false]
        rw [Grid.set_set_zero bd r c num h0, hmin, ih _ (by omega)]
        simp only [Nat.add_assoc]
      · simp only [hlt, decide_False, Bool.not_false, if_true]
        rw [Grid.set_set_zero bd r c num h0]
        have h1 : ¬ (count + ((sols m (bd.set r c num)).length +
            ((rest.filter (fun v => isSafe bd r c v)).flatMap
              (fun v => sols m (bd.set r c v))).length) < 2) := by omega
        have h2 : min (count + (sols m (bd.set r c num)).length) 2 =
            min (count + ((sols m (bd.set r c num)).length +
              ((rest.filter (fun v => isSafe bd r c v)).flatMap
                (fun v => sols m (bd.set r c v))).length)) 2 := by omega
        simp only [h1, decide_False, h2]
    · rw [if_neg hs, ih _ hcount]
      simp only [List.filter_cons, hs]
      simp

/-- The call `solve(bd, r, c)` with at most one solution counted so far: given
enough depth it returns, with the counter advanced by the number of boards the
enumeration lists (capped at 2), the boolean `count < 2`, and the board as it was
on entry. -/
theorem solve_spec (fuel : Nat) (bd : Grid) (r c count : Nat)
    (hr : r ≤ 9) (hc : c ≤ 9) (hrc : r = 9 → c = 0) (hfuel : 91 ≤ fuel + (10 * r + c))
    (hcount : count ≤ 1) :
    solve fuel bd r c count =
      some (decide (count + (sols (81 - (9 * r + c)) bd).length < 2), bd,
        min (count + (sols (81 - (9 * r + c)) bd).length) 2) := by
  induction fuel generalizing bd r c count with
  | zero => omega
  | succ fuel ih =>
    unfold solve
    by_cases h9 : r = 9
    · have hc0 := hrc h9
      subst h9 hc0
      simp [sols]
      omega
    · rw [if_neg h9]
      by_cases hc9 : c = 9
      · subst hc9
        rw [if_pos rfl, ih bd (r + 1) 0 count (by omega) (by omega) (fun _ => rfl) (by omega) hcount]
        have : 9 * (r + 1) + 0 = 9 * r + 9 := by omega
        rw [this]
      · rw [if_neg hc9]
        have hm : 81 - (9 * r + c) = (80 - (9 * r + c)) + 1 := by omega
        have hk : 80 - (80 - (9 * r + c)) = 9 * r + c := by omega
        have hkr : (9 * r + c) / 9 = r := by omega
        have hkc : (9 * r + c) % 9 = c := by omega
        have hm2 : 81 - (9 * r + (c + 1)) = 80 - (9 * r + c) := by omega
        rw [hm]
        unfold sols
        rw [hk, hkr, hkc]
        by_cases h0 : bd.get r c ≠ 0
        · rw [if_pos h0, if_pos h0,
            ih bd r (c + 1) count hr (by omega) (fun h => absurd h h9) (by omega) hcount, hm2]
        · rw [if_neg h0, if_neg h0]
          push_neg at h0
          exact solveLoop_spec _ (80 - (9 * r + c)) r c
            (fun bd1 count1 hc1 => by
              rw [ih bd1 r (c + 1) count1 hr (by omega) (fun h => absurd h h9) (by omega) hc1,
                hm2])
            (List.range' 1 9) bd h0 count hcount

/-- The value of `hasUniqueSolution`: the search always returns, and the answer
says whether the enumeration lists exactly one board. -/
theorem hasUniqueSolution_eq (board : Grid) :
    hasUniqueSolution board = some (decide ((sols 81 board).length = 1)) := by
  unfold hasUniqueSolution
  rw [Grid.copy_eq, solve_spec 91 board 0 0 0 (by omega) (by omega) (by omega) (by omega)
    (by omega)]
  simp only [Option.map_some', Nat.zero_add, Nat.mul_zero, Nat.sub_zero]
  congr 1
  by_cases h : (sols 81 board).length = 1
  · simp [h]
  · have : min (sols 81 board).length 2 ≠ 1 := by omega
    simp [h, this]

theorem hasUniqueSolution_iff (board : Grid) :
    hasUniqueSolution board = some true ↔ ∃! G, Fills 0 board G := by
  rw [hasUniqueSolution_eq, Option.some.injEq, decide_eq_true_eq,
    length_eq_one_iff_existsUnique _ (nodup_sols 81 (by omega) board)]
  simp only [mem_sols 81 (by omega), Nat.sub_self]

/-! ## Rule-valid grids -/

theorem eachOnce_iff (l : List Nat) (hl : l.length = 9) :
    EachOnce l ↔ l.Nodup ∧ ∀ x ∈ l, 1 ≤ x ∧ x ≤ 9 := by
  constructor
  · intro h
    have hsub : List.range' 1 9 ⊆ l := by
      intro v hv
      have := h v hv
      exact List.count_pos_iff.1 (by omega)
    have hperm : (List.range' 1 9).Perm l :=
      ((List.nodup_range' 1 9).subperm hsub).perm_of_length_le (by simp [hl])
    refine ⟨(hperm.nodup_iff).1 (List.nodup_range' 1 9), fun x hx => ?_⟩
    have := (hperm.mem_iff).2 hx
    rw [List.mem_range'_1] at this
    omega
  · rintro ⟨hnd, hrange⟩ v hv
    have hsub : l ⊆ List.range' 1 9 := by
      intro x hx
      have := hrange x hx
      rw [List.mem_range'_1]; omega
    have hperm : l.Perm (List.range' 1 9) :=
      (hnd.subperm hsub).perm_of_length_le (by simp [hl])
    exact List.count_eq_one_of_mem hnd ((hperm.mem_iff).2 hv)

theorem eachOnce_map_iff (f : Nat → Nat) :
    EachOnce ((List.range 9).map f) ↔
      (∀ x < 9, ∀ y < 9, f x = f y → x = y) ∧ ∀ x < 9, 1 ≤ f x ∧ f x ≤ 9 := by
  rw [eachOnce_iff _ (by simp), List.nodup_map_iff_inj_on (List.nodup_range 9)]
  simp only [List.mem_range, List.mem_map, forall_exists_index, and_imp]
  constructor
  · rintro ⟨h1, h2⟩
    exact ⟨h1, fun x hx => h2 (f x) x hx rfl⟩
  · rintro ⟨h1, h2⟩
    exact ⟨h1, fun _ x hx e => e ▸ h2 x hx⟩

/-- Rule-validity cell by cell: every cell holds a value in `1..9`, and no two
different cells of one row, column or box hold the same value. -/
theorem valid_iff (G : Grid) :
    Valid G ↔ (∀ r c : Fin 9, 1 ≤ G r c ∧ G r c ≤ 9) ∧
      (∀ r c i j : Fin 9, sameUnit r c i j → (i ≠ r ∨ j ≠ c) → G i j ≠ G r c) := by
  unfold Valid rowVals colVals boxVals
  simp only [eachOnce_map_iff]
  constructor
  · intro h
    refine ⟨fun r c => ?_, ?_⟩
    · have := (h r.val r.isLt).1.2 c.val c.isLt
      rwa [Grid.get_fin] at this
    · intro r c i j hu hne e
      have hne2 : i.val ≠ r.val ∨ j.val ≠ c.val := by
        rcases hne with h1 | h1
        · exact Or.inl (fun e => h1 (Fin.ext e))
        · exact Or.inr (fun e => h1 (Fin.ext e))
      by_cases hrow : i.val = r.val
      · have := (h r.val r.isLt).1.1 j.val j.isLt c.val c.isLt (by
          have hir : i = r := Fin.ext hrow
          subst hir
          rw [Grid.get_fin, Grid.get_fin]
          exact e)
        omega
      · by_cases hcol : j.val = c.val
        · have := (h c.val c.isLt).2.1.1 i.val i.isLt r.val r.isLt (by
            have hjc : j = c := Fin.ext hcol
            subst hjc
            rw [Grid.get_fin, Grid.get_fin]
            exact e)
          omega
        · have hbox : i.val / 3 = r.val / 3 ∧ j.val / 3 = c.val / 3 := by
            rcases hu with h1 | h1 | h1
            · exact absurd h1 hrow
            · exact absurd h1 hcol
            · exact h1
          have hi := i.isLt
          have hj := j.isLt
          have hr := r.isLt
          have hc := c.isLt
          have := (h (3 * (r.val / 3) + c.val / 3) (by omega)).2.2.1
            (3 * (i.val % 3) + j.val % 3) (by omega)
            (3 * (r.val % 3) + c.val % 3) (by omega) (by
              have e1 : 3 * ((3 * (r.val / 3) + c.val / 3) / 3) +
                  (3 * (i.val % 3) + j.val % 3) / 3 = i.val := by omega
              have e2 : 3 * ((3 * (r.val / 3) + c.val / 3) % 3) +
                  (3 * (i.val % 3) + j.val % 3) % 3 = j.val := by omega
              have e3 : 3 * ((3 * (r.val / 3) + c.val / 3) / 3) +
                  (3 * (r.val % 3) + c.val % 3) / 3 = r.val := by omega
              have e4 : 3 * ((3 * (r.val / 3) + c.val / 3) % 3) +
                  (3 * (r.val % 3) + c.val % 3) % 3 = c.val := by omega
              rw [e1, e2, e3, e4, Grid.get_fin, Grid.get_fin]
              exact e)
          omega
  · rintro ⟨hrange, hne⟩ b hb
    have key : ∀ r c i j, ∀ (hr : r < 9) (hc : c < 9) (hi : i < 9) (hj : j < 9),
        sameUnit r c i j → G.get i j = G.get r c → i = r ∧ j = c := by
      intro r c i j hr hc hi hj hu e
      by_contra hcon
      rw [Grid.get_of_lt G hi hj, Grid.get_of_lt G hr hc] at e
      refine hne ⟨r, hr⟩ ⟨c, hc⟩ ⟨i, hi⟩ ⟨j, hj⟩ hu ?_ e
      by_contra h2
      push_neg at h2
      exact hcon ⟨congrArg Fin.val h2.1, congrArg Fin.val h2.2⟩
    have rng : ∀ r c, r < 9 → c < 9 → 1 ≤ G.get r c ∧ G.get r c ≤ 9 := by
      intro r c hr hc
      rw [Grid.get_of_lt G hr hc]
      exact hrange _ _
    refine ⟨⟨?_, fun x hx => rng b x hb hx⟩, ⟨?_, fun x hx => rng x b hx hb⟩, ⟨?_, ?_⟩⟩
    · intro x hx y hy e
      exact ((key b y b x hb hy hb hx (Or.inl rfl) e).2)
    · intro x hx y hy e
      exact ((key y b x b hy hb hx hb (Or.inr (Or.inl rfl)) e).1)
    · intro x hx y hy e
      have := key _ _ _ _ (by omega) (by omega) (by omega) (by omega)
        (Or.inr (Or.inr ⟨by omega, by omega⟩)) e
      omega
    · intro x hx
      exact rng _ _ (by omega) (by omega)

/-- For a board whose givens are in `0..9` and do not clash, the boards counted
by the search are the rule-valid grids that agree with its nonzero cells. -/
theorem fills_iff_valid (bd G : Grid) (hrange : ∀ r c : Fin 9, bd r c ≤ 9)
    (hcons : Consistent bd) : Fills 0 bd G ↔ Valid G ∧ Agrees bd G := by
  rw [valid_iff]
  constructor
  · rintro ⟨h1, h2, h3⟩
    have hag : Agrees bd G := fun r c h => h1 r c (Or.inr h)
    refine ⟨⟨fun r c => ?_, ?_⟩, hag⟩
    · by_cases hz : bd r c = 0
      · exact h2 r c (Nat.zero_le _) hz
      · rw [hag r c hz]
        have := hrange r c
        omega
    · intro r c i j hu hne
      by_cases hz : bd r c = 0
      · exact h3 r c i j (Nat.zero_le _) hz hu hne
      · by_cases hz2 : bd i j = 0
        · have := h3 i j r c (Nat.zero_le _) hz2 (sameUnit_symm hu) (by
            rcases hne with h | h
            · exact Or.inl (Ne.symm h)
            · exact Or.inr (Ne.symm h))
          exact Ne.symm this
        · rw [hag r c hz, hag i j hz2]
          exact hcons r c i j hu hne hz
  · rintro ⟨⟨hr, hn⟩, hag⟩
    refine ⟨?_, fun r c _ _ => hr r c, fun r c i j _ _ hu hne => hn r c i j hu hne⟩
    intro r c h
    rcases h with h | h
    · omega
    · exact hag r c h

theorem fills_zero_iff (bd G : Grid) : Fills 0 bd G ↔ Completes bd G := by
  unfold Fills Completes Agrees
  constructor
  · rintro ⟨h1, h2, h3⟩
    exact ⟨fun r c h => h1 r c (Or.inr h), fun r c h => h2 r c (Nat.zero_le _) h,
      fun r c i j h => h3 r c i j (Nat.zero_le _) h⟩
  · rintro ⟨h1, h2, h3⟩
    refine ⟨fun r c h => ?_, fun r c _ h => h2 r c h, fun r c i j _ h => h3 r c i j h⟩
    rcases h with h | h
    · omega
    · exact h1 r c h

theorem consistent_of_agrees (bd S : Grid) (hS : Valid S) (hag : Agrees bd S) :
    Consistent bd := by
  intro r c i j hu hne hz e
  have hzi : bd i j ≠ 0 := by rw [e]; exact hz
  have := ((valid_iff S).1 hS).2 r c i j hu hne
  rw [hag r c hz, hag i j hzi] at this
  exact this e

/-- On a board with givens in `0..9` that do not clash, `hasUniqueSolution`
answers whether exactly one rule-valid grid agrees with the givens. -/
theorem hasUniqueSolution_iff_valid (grid : Grid)
    (hrange : ∀ r c : Fin 9, grid r c ≤ 9) (hcons : Consistent grid) :
    hasUniqueSolution grid = some true ↔ ∃! G, Valid G ∧ Agrees grid G := by
  rw [hasUniqueSolution_iff]
  simp only [fills_iff_valid grid _ hrange hcons]

theorem two_le_length_of_mem {α : Type} (l : List α) (a b : α) (ha : a ∈ l) (hb : b ∈ l)
    (hab : a ≠ b) : 2 ≤ l.length := by
  match l, ha, hb with
  | [], ha, _ => simp at ha
  | [x], ha, hb =>
    simp only [List.mem_singleton] at ha hb
    exact absurd (ha.trans hb.symm) hab
  | _ :: _ :: _, _, _ => simp

/-! ## `shuffle` and `fillBoard` -/

theorem swap_perm (arr : List Nat) (i j : Nat) (hi : i < arr.length) (hj : j < arr.length) :
    (swap arr i j).Perm arr := by
  rw [List.perm_iff_count]
  intro b
  unfold swap
  have hj2 : j < (arr.set i arr[j]).length := by simpa using hj
  rw [List.getD_eq_getElem _ _ hi, List.getD_eq_getElem _ _ hj,
    List.count_set _ _ _ _ hj2, List.count_set _ _ _ _ hi]
  have hjj : (arr.set i arr[j])[j] = arr[j] := by
    rw [List.getElem_set]
    split
    · rfl
    · rfl
  rw [hjj]
  have hle : (if (arr[i] == b) = true then 1 else 0) ≤ arr.count b := by
    split
    · rename_i h
      have hmem : arr[i] ∈ arr := List.getElem_mem hi
      rw [beq_iff_eq] at h
      rw [h] at hmem
      exact List.one_le_count_iff.2 hmem
    · omega
  omega

theorem swap_length (arr : List Nat) (i j : Nat) : (swap arr i j).length = arr.length := by
  simp [swap]

theorem shuffleLoop_perm (rand : Nat → Nat) (i : Nat) (arr : List Nat) (n : Nat)
    (hi : i < arr.length) : (shuffleLoop rand i arr n).1.Perm arr := by
  induction i generalizing arr n with
  | zero => exact List.Perm.refl _
  | succ i ih =>
    unfold shuffleLoop
    have hj : rand n % (i + 1 + 1) < arr.length :=
      Nat.lt_of_lt_of_le (Nat.mod_lt _ (by omega)) (by omega)
    exact (ih _ _ (by rw [swap_length]; omega)).trans (swap_perm arr _ _ hi hj)

/-- Every outcome of `shuffle([1,...,9])` is a permutation of `1..9`. -/
theorem shuffle_perm (rand : Nat → Nat) (n : Nat) :
    (shuffle rand [1, 2, 3, 4, 5, 6, 7, 8, 9] n).1.Perm [1, 2, 3, 4, 5, 6, 7, 8, 9] :=
  shuffleLoop_perm rand _ _ n (by simp)

theorem mem_shuffle (rand : Nat → Nat) (n v : Nat) :
    v ∈ (shuffle rand [1, 2, 3, 4, 5, 6, 7, 8, 9] n).1 ↔ 1 ≤ v ∧ v ≤ 9 := by
  rw [(shuffle_perm rand n).mem_iff]
  simp only [List.mem_cons, List.mem_singleton, List.not_mem_nil, or_false]
  omega

theorem emptyFrom_set (k : Nat) (board : Grid) (r c v : Nat) (hk : 9 * r + c = k)
    (h : EmptyFrom k board) : EmptyFrom (k + 1) (board.set r c v) := by
  intro i j hij
  have e : ¬ (i.val = r ∧ j.val = c) := by
    rintro ⟨a, b⟩; omega
  simp only [Grid.set, e, if_false]
  exact h i j (by omega)

/-- The loop of `fillBoard` over the candidates `nums`, when every recursive call
either succeeds with a board of the enumeration or fails and gives its board
back. -/
theorem fillLoop_spec (next : Grid → Nat → Option FillResult) (m r c : Nat)
    (hnext : ∀ b n, EmptyFrom (9 * r + c + 1) b → ∃ ok b1 n1, next b n = some (ok, b1, n1) ∧
      (ok = true → b1 ∈ sols m b) ∧ (ok = false → b1 = b ∧ sols m b = []))
    (nums : List Nat) (board : Grid) (h0 : board.get r c = 0)
    (hempty : EmptyFrom (9 * r + c) board) (n : Nat) :
    ∃ ok b1 n1, fillLoop next r c nums board n = some (ok, b1, n1) ∧
      (ok = true → ∃ v ∈ nums, isSafe board r c v = true ∧ b1 ∈ sols m (board.set r c v)) ∧
      (ok = false → b1 = board ∧
        ∀ v ∈ nums, isSafe board r c v = true → sols m (board.set r c v) = []) := by
  induction nums generalizing n with
  | nil => exact ⟨false, board, n, rfl, by simp, by simp⟩
  | cons num rest ih =>
    unfold fillLoop
    by_cases hs : isSafe board r c num = true
    · rw [if_pos hs]
      obtain ⟨ok, b1, n1, hcall, htrue, hfalse⟩ :=
        hnext (board.set r c num) n (emptyFrom_set _ board r c num rfl hempty)
      rw [hcall]
      cases ok with
      | true =>
        exact ⟨true, b1, n1, by simp, fun _ => ⟨num, by simp, hs, htrue rfl⟩, by simp⟩
      | false =>
        obtain ⟨hb1, hnil⟩ := hfalse rfl
        simp only [Bool.false_eq_true, if_false]
        rw [hb1, Grid.set_set_zero board r c num h0]
        obtain ⟨ok2, b2, n2, hloop, htrue2, hfalse2⟩ := ih n1
        refine ⟨ok2, b2, n2, hloop, ?_, ?_⟩
        · intro h
          obtain ⟨v, hv, hsv, hmem⟩ := htrue2 h
          exact ⟨v, List.mem_cons_of_mem _ hv, hsv, hmem⟩
        · intro h
          obtain ⟨hb2, hall⟩ := hfalse2 h
          refine ⟨hb2, ?_⟩
          intro v hv hsv
          rcases List.mem_cons.1 hv with rfl | hv
          · exact hnil
          · exact hall v hv hsv
    · rw [if_neg hs]
      obtain ⟨ok2, b2, n2, hloop, htrue2, hfalse2⟩ := ih n
      refine ⟨ok2, b2, n2, hloop, ?_, ?_⟩
      · intro h
        obtain ⟨v, hv, hsv, hmem⟩ := htrue2 h
        exact ⟨v, List.mem_cons_of_mem _ hv, hsv, hmem⟩
      · intro h
        obtain ⟨hb2, hall⟩ := hfalse2 h
        refine ⟨hb2, ?_⟩
        intro v hv hsv
        rcases List.mem_cons.1 hv with rfl | hv
        · exact absurd hsv hs
        · exact hall v hv hsv

/-- The call `fillBoard(board, r, c)` on a board that is empty from `(r, c)` on:
given enough depth it returns, either true with a board of the enumeration, or
false with the board as it was and an empty enumeration. -/
theorem fillBoard_spec (rand : Nat → Nat) (fuel : Nat) (board : Grid) (r c n : Nat)
    (hr : r ≤ 9) (hc : c ≤ 9) (hrc : r = 9 → c = 0) (hfuel : 91 ≤ fuel + (10 * r + c))
    (hempty : EmptyFrom (9 * r + c) board) :
    ∃ ok b1 n1, fillBoard rand fuel board r c n = some (ok, b1, n1) ∧
      (ok = true → b1 ∈ sols (81 - (9 * r + c)) board) ∧
      (ok = false → b1 = board ∧ sols (81 - (9 * r + c)) board = []) := by
  induction fuel generalizing board r c n with
  | zero => omega
  | succ fuel ih =>
    unfold fillBoard
    by_cases h9 : r = 9
    · have hc0 := hrc h9
      subst h9 hc0
      exact ⟨true, board, n, by simp, by simp [sols], by simp⟩
    · rw [if_neg h9]
      by_cases hc9 : c = 9
      · subst hc9
        rw [if_pos rfl]
        have e : 9 * (r + 1) + 0 = 9 * r + 9 := by omega
        have := ih board (r + 1) 0 n (by omega) (by omega) (fun _ => rfl) (by omega)
          (by rw [e]; exact hempty)
        rw [e] at this
        exact this
      · rw [if_neg hc9]
        have hm : 81 - (9 * r + c) = (80 - (9 * r + c)) + 1 := by omega
        have hk : 80 - (80 - (9 * r + c)) = 9 * r + c := by omega
        have hkr : (9 * r + c) / 9 = r := by omega
        have hkc : (9 * r + c) % 9 = c := by omega
        have hm2 : 81 - (9 * r + (c + 1)) = 80 - (9 * r + c) := by omega
        have h0 : board.get r c = 0 := by
          rw [Grid.get_of_lt board (by omega : r < 9) (by omega : c < 9)]
          exact hempty _ _ (by simp)
        obtain ⟨ok, b1, n1, hloop, htrue, hfalse⟩ :=
          fillLoop_spec (fun board1 n1 => fillBoard rand fuel board1 r (c + 1) n1)
            (80 - (9 * r + c)) r c
            (fun b n2 hb => by
              have := ih b r (c + 1) n2 hr (by omega) (fun h => absurd h h9) (by omega) hb
              rw [hm2] at this
              exact this)
            (shuffle rand [1, 2, 3, 4, 5, 6, 7, 8, 9] n).1 board h0 hempty
            (shuffle rand [1, 2, 3, 4, 5, 6, 7, 8, 9] n).2
        refine ⟨ok, b1, n1, hloop, ?_, ?_⟩
        · intro h
          obtain ⟨v, hv, hsv, hmem⟩ := htrue h
          rw [mem_shuffle] at hv
          rw [hm]
          unfold sols
          rw [hk, hkr, hkc, if_neg (by simp [h0])]
          simp only [List.mem_flatMap, List.mem_filter, List.mem_range'_1]
          exact ⟨v, ⟨⟨hv.1, by omega⟩, hsv⟩, hmem⟩
        · intro h
          obtain ⟨hb, hall⟩ := hfalse h
          refine ⟨hb, ?_⟩
          rw [hm]
          unfold sols
          rw [hk, hkr, hkc, if_neg (by simp [h0])]
          apply List.eq_nil_iff_forall_not_mem.2
          intro G hG
          simp only [List.mem_flatMap, List.mem_filter, List.mem_range'_1] at hG
          obtain ⟨v, ⟨hv, hsv⟩, hmem⟩ := hG
          have := hall v ((mem_shuffle rand n v).2 ⟨hv.1, by omega⟩) hsv
          rw [this] at hmem
          simp at hmem

/-! ## The puzzle reducer -/

theorem Grid.set_set_restore (g : Grid) (r c : Nat) :
    (g.set r c 0).set r c (g.get r c) = g := by
  apply Grid.ext_get
  intro r1 c1 h1 h2
  rw [Grid.get_set, Grid.get_set]
  by_cases h3 : r1 = r ∧ c1 = c
  · obtain ⟨rfl, rfl⟩ := h3
    simp [h1, h2]
  · have h4 : ¬ (r1 = r ∧ c1 = c ∧ r1 < 9 ∧ c1 < 9) := fun h5 => h3 ⟨h5.1, h5.2.1⟩
    simp [h4]

theorem nonzeroCount_set_zero (g : Grid) (r c : Fin 9) (h : g r c ≠ 0) :
    nonzeroCount (g.set r c 0) + 1 = nonzeroCount g := by
  unfold nonzeroCount
  have e : Finset.univ.filter (fun p : Fin 9 × Fin 9 => (g.set r c 0) p.1 p.2 ≠ 0) =
      (Finset.univ.filter (fun p : Fin 9 × Fin 9 => g p.1 p.2 ≠ 0)).erase (r, c) := by
    ext ⟨i, j⟩
    simp only [Finset.mem_filter, Finset.mem_univ, true_and, Finset.mem_erase, Grid.set,
      ne_eq, Prod.mk.injEq]
    by_cases hij : i.val = r.val ∧ j.val = c.val
    · have h1 : i = r := Fin.ext hij.1
      have h2 : j = c := Fin.ext hij.2
      simp [h1, h2]
    · have : ¬ (i = r ∧ j = c) := fun hh => hij ⟨congrArg Fin.val hh.1, congrArg Fin.val hh.2⟩
      simp [hij, this]
  rw [e, Finset.card_erase_of_mem (by simp [h])]
  have : 0 < (Finset.univ.filter (fun p : Fin 9 × Fin 9 => g p.1 p.2 ≠ 0)).card :=
    Finset.card_pos.2 ⟨(r, c), by simp [h]⟩
  omega

theorem nonzeroCount_full (g : Grid) (h : ∀ r c : Fin 9, g r c ≠ 0) : nonzeroCount g = 81 := by
  unfold nonzeroCount
  have e : Finset.univ.filter (fun p : Fin 9 × Fin 9 => g p.1 p.2 ≠ 0) = Finset.univ := by
    ext p
    simp [h p.1 p.2]
  rw [e]
  rfl

/-- One pass of the loop body always goes through, and it leaves the board as it
was, or with the picked cell cleared, the cleared board passing
`hasUniqueSolution` and `removed` one less. -/
theorem puzzleStep_cases (puzzle : Grid) (removed i j : Nat) :
    puzzleStep puzzle removed i j = some (puzzle, removed) ∨
    (puzzle.get i j ≠ 0 ∧ hasUniqueSolution (puzzle.set i j 0) = some true ∧
      puzzleStep puzzle removed i j = some (puzzle.set i j 0, removed - 1)) := by
  unfold puzzleStep
  by_cases h : puzzle.get i j ≠ 0
  · rw [if_pos h, hasUniqueSolution_eq]
    by_cases hu : (sols 81 (puzzle.set i j 0)).length = 1
    · right
      refine ⟨h, ?_, ?_⟩
      · simp [hu]
      · simp [hu]
    · left
      simp [hu, Grid.set_set_restore]
  · rw [if_neg h]
    exact Or.inl rfl

/-- A property of the loop state that holds on entry and is kept by every pass
through the loop body holds at every loop head. -/
theorem puzzleRun_invariant (P : Grid → Nat → Prop)
    (hstep : ∀ puzzle removed i j, i < 9 → j < 9 → 0 < removed → P puzzle removed →
      puzzle.get i j ≠ 0 → hasUniqueSolution (puzzle.set i j 0) = some true →
      P (puzzle.set i j 0) (removed - 1))
    (picks : List (Nat × Nat)) (hpicks : ∀ pick ∈ picks, pick.1 < 9 ∧ pick.2 < 9)
    (puzzle : Grid) (removed : Nat) (h0 : P puzzle removed)
    (puzzle1 : Grid) (removed1 : Nat)
    (hrun : puzzleRun picks puzzle removed = some (puzzle1, removed1)) :
    P puzzle1 removed1 := by
  induction picks generalizing puzzle removed with
  | nil =>
    simp only [puzzleRun, Option.some.injEq, Prod.mk.injEq] at hrun
    rw [← hrun.1, ← hrun.2]; exact h0
  | cons pick rest ih =>
    unfold puzzleRun at hrun
    by_cases hpos : removed > 0
    · rw [if_pos hpos] at hrun
      have hp := hpicks pick (by simp)
      have hrest : ∀ q ∈ rest, q.1 < 9 ∧ q.2 < 9 := fun q hq => hpicks q (by simp [hq])
      rcases puzzleStep_cases puzzle removed pick.1 pick.2 with hs | ⟨hne, hu, hs⟩
      · rw [hs] at hrun
        exact ih hrest puzzle removed h0 hrun
      · rw [hs] at hrun
        exact ih hrest _ _ (hstep puzzle removed pick.1 pick.2 hp.1 hp.2 hpos h0 hne hu) hrun
    · rw [if_neg hpos] at hrun
      simp only [Option.some.injEq, Prod.mk.injEq] at hrun
      rw [← hrun.1, ← hrun.2]; exact h0

theorem generatePuzzle_eq_some (fullBoard : Grid) (clues : Nat) (picks : List (Nat × Nat))
    (puzzle : Grid) (h : generatePuzzle fullBoard clues picks = some puzzle) :
    puzzleRun picks fullBoard (81 - clues) = some (puzzle, 0) := by
  unfold generatePuzzle at h
  rw [Grid.copy_eq] at h
  split at h
  · rename_i p heq
    rw [heq]
    simp only [Option.some.injEq] at h
    rw [h]
  · exact absurd h (by simp)

/-- A full board passes `hasUniqueSolution`: the search steps over every cell and
counts the board itself. -/
theorem hasUniqueSolution_full (g : Grid) (h : ∀ r c : Fin 9, g r c ≠ 0) :
    hasUniqueSolution g = some true := by
  rw [hasUniqueSolution_iff]
  refine ⟨g, ?_, ?_⟩
  · exact ⟨fun _ _ _ => rfl, fun r c _ hz => absurd hz (h r c),
      fun r c _ _ _ hz => absurd hz (h r c)⟩
  · intro G hG
    funext r c
    exact hG.1 r c (Or.inr (h r c))

theorem valid_nonzero (S : Grid) (hS : Valid S) (r c : Fin 9) : S r c ≠ 0 := by
  have := ((valid_iff S).1 hS).1 r c
  omega

/-! ## `solve` on a store of row arrays -/

theorem getD_set_rows (l : Heap) (a b : Nat) (x : List Nat) (ha : a < l.length) :
    (l.set a x).getD b [] = if b = a then x else l.getD b [] := by
  simp only [List.getD_eq_getElem?_getD, List.getElem?_set]
  split
  · rename_i h; subst h; simp [ha]
  · rename_i h; rw [if_neg (Ne.symm h)]

theorem getD_set_cells (l : List Nat) (c j v : Nat) (hc : c < l.length) :
    (l.set c v).getD j 0 = if j = c then v else l.getD j 0 := by
  simp only [List.getD_eq_getElem?_getD, List.getElem?_set]
  split
  · rename_i h; subst h; simp [hc]
  · rename_i h; rw [if_neg (Ne.symm h)]

theorem Heap.read_write (h : Heap) (bd : BoardRef) (hwf : h.HoldsBoard bd)
    (r c v i j : Nat) (hi : i < 9) (hj : j < 9) :
    (h.write bd r c v).read bd i j = if i = r ∧ j = c then v else h.read bd i j := by
  obtain ⟨hlen, hnd, hrows⟩ := hwf
  have hil : i < bd.length := by omega
  unfold Heap.read Heap.write
  rw [List.getElem?_eq_getElem hil]
  by_cases hr : r < bd.length
  · rw [List.getElem?_eq_getElem hr]
    have har := hrows bd[r] (List.getElem_mem hr)
    simp only
    rw [getD_set_rows h _ _ _ har.1]
    by_cases hir : i = r
    · subst hir
      rw [if_pos rfl]
      by_cases hc : c < 9
      · rw [getD_set_cells _ _ _ _ (by omega)]
        by_cases hjc : j = c
        · simp [hjc]
        · simp [hjc]
      · rw [List.set_eq_of_length_le (by omega)]
        have : ¬ (i = i ∧ j = c) := by omega
        rw [if_neg this]
    · have : bd[i] ≠ bd[r] := fun e => hir ((hnd.getElem_inj_iff).1 e)
      rw [if_neg this, if_neg (fun e => hir e.1)]
  · rw [List.getElem?_eq_none (by omega)]
    simp only
    rw [if_neg (fun e => hr (by omega))]

theorem Heap.grid_write (h : Heap) (bd : BoardRef) (hwf : h.HoldsBoard bd) (r c v : Nat) :
    (h.write bd r c v).grid bd = (h.grid bd).set r c v := by
  funext i j
  simp only [Heap.grid, Grid.set]
  exact Heap.read_write h bd hwf r c v i.val j.val i.isLt j.isLt

theorem Heap.read_eq_get (h : Heap) (bd : BoardRef) (r c : Nat)
    (hr : r < 9) (hc : c < 9) : h.read bd r c = (h.grid bd).get r c := by
  rw [Grid.get_of_lt _ hr hc]
  rfl

theorem Heap.write_sameOutside (h : Heap) (bd : BoardRef) (hwf : h.HoldsBoard bd)
    (r c v : Nat) :
    (h.write bd r c v).HoldsBoard bd ∧ h.SameOutside (h.write bd r c v) bd := by
  obtain ⟨hlen, hnd, hrows⟩ := hwf
  unfold Heap.write
  by_cases hr : r < bd.length
  · rw [List.getElem?_eq_getElem hr]
    have har := hrows bd[r] (List.getElem_mem hr)
    simp only
    refine ⟨⟨hlen, hnd, ?_⟩, ?_, ?_⟩
    · intro a ha
      have := hrows a ha
      refine ⟨by simpa using this.1, ?_⟩
      rw [getD_set_rows h _ _ _ har.1]
      split
      · simpa using har.2
      · exact this.2
    · simp
    · intro a ha
      rw [getD_set_rows h _ _ _ har.1]
      have : a ≠ bd[r] := fun e => ha (e ▸ List.getElem_mem hr)
      rw [if_neg this]
  · rw [List.getElem?_eq_none (by omega)]
    exact ⟨⟨hlen, hnd, hrows⟩, rfl, fun _ _ => rfl⟩

theorem Heap.sameOutside_trans {h1 h2 h3 : Heap} {bd : BoardRef}
    (h12 : h1.SameOutside h2 bd) (h23 : h2.SameOutside h3 bd) : h1.SameOutside h3 bd :=
  ⟨h23.1.trans h12.1, fun a ha => (h23.2 a ha).trans (h12.2 a ha)⟩

/-- The loop of `solve` on a store does what the loop on values does, writing only
into the rows of `bd`. -/
theorem solveRefLoop_sim (nextRef : Heap → Nat → Option SolveRefResult)
    (next : Grid → Nat → Option SolveResult) (bd : BoardRef) (r c : Nat)
    (hnext : ∀ h count ok g count1, h.HoldsBoard bd →
      next (h.grid bd) count = some (ok, g, count1) →
      ∃ h1, nextRef h count = some (ok, h1, count1) ∧ h1.grid bd = g ∧
        h1.HoldsBoard bd ∧ h.SameOutside h1 bd)
    (nums : List Nat) (h : Heap) (count : Nat) (ok : Bool) (g : Grid) (count1 : Nat)
    (hwf : h.HoldsBoard bd)
    (hval : solveLoop next r c nums (h.grid bd) count = some (ok, g, count1)) :
    ∃ h1, solveRefLoop nextRef bd r c nums h count = some (ok, h1, count1) ∧
      h1.grid bd = g ∧ h1.HoldsBoard bd ∧ h.SameOutside h1 bd := by
  induction nums generalizing h count with
  | nil =>
    simp only [solveLoop, Option.some.injEq, Prod.mk.injEq] at hval
    obtain ⟨rfl, rfl, rfl⟩ := hval
    exact ⟨h, rfl, rfl, hwf, rfl, fun _ _ => rfl⟩
  | cons num rest ih =>
    unfold solveLoop at hval
    unfold solveRefLoop
    by_cases hs : isSafe (h.grid bd) r c num = true
    · rw [if_pos hs] at hval
      rw [if_pos hs]
      rw [← Heap.grid_write h bd hwf] at hval
      have hw := Heap.write_sameOutside h bd hwf r c num
      cases hn : next ((h.write bd r c num).grid bd) count with
      | none => rw [hn] at hval; simp at hval
      | some res =>
        obtain ⟨ok1, g1, c1⟩ := res
        rw [hn] at hval
        obtain ⟨h1, hcall, hg1, hwf1, hout1⟩ := hnext _ _ _ _ _ hw.1 hn
        rw [hcall]
        have hw1 := Heap.write_sameOutside h1 bd hwf1 r c 0
        simp only at hval ⊢
        subst hg1
        rw [← Heap.grid_write h1 bd hwf1] at hval
        cases ok1 with
        | false =>
          simp only [Bool.not_false, if_true, Option.some.injEq, Prod.mk.injEq] at hval ⊢
          obtain ⟨rfl, rfl, rfl⟩ := hval
          exact ⟨_, ⟨rfl, rfl, rfl⟩, rfl, hw1.1,
            Heap.sameOutside_trans (Heap.sameOutside_trans hw.2 hout1) hw1.2⟩
        | true =>
          simp only [Bool.not_true, Bool.false_eq_true, if_false] at hval ⊢
          obtain ⟨h2, hloop, hg2, hwf2, hout2⟩ := ih _ _ hw1.1 hval
          exact ⟨h2, hloop, hg2, hwf2,
            Heap.sameOutside_trans (Heap.sameOutside_trans
              (Heap.sameOutside_trans hw.2 hout1) hw1.2) hout2⟩
    · rw [if_neg hs] at hval
      rw [if_neg hs]
      exact ih _ _ hwf hval

/-- The function `solve` on a store does what `solve` on values does, writing only
into the rows of `bd`. -/
theorem solveRef_sim (fuel : Nat) (bd : BoardRef) (h : Heap) (r c count : Nat)
    (hr : r ≤ 9) (hc : c ≤ 9) (ok : Bool) (g : Grid) (count1 : Nat)
    (hwf : h.HoldsBoard bd)
    (hval : solve fuel (h.grid bd) r c count = some (ok, g, count1)) :
    ∃ h1, solveRef fuel h bd r c count = some (ok, h1, count1) ∧
      h1.grid bd = g ∧ h1.HoldsBoard bd ∧ h.SameOutside h1 bd := by
  induction fuel generalizing h r c count ok g count1 with
  | zero => simp [solve] at hval
  | succ fuel ih =>
    unfold solve at hval
    unfold solveRef
    by_cases h9 : r = 9
    · rw [if_pos h9] at hval
      rw [if_pos h9]
      simp only [Option.some.injEq, Prod.mk.injEq] at hval
      obtain ⟨rfl, rfl, rfl⟩ := hval
      exact ⟨h, rfl, rfl, hwf, rfl, fun _ _ => rfl⟩
    · rw [if_neg h9] at hval
      rw [if_neg h9]
      by_cases hc9 : c = 9
      · rw [if_pos hc9] at hval
        rw [if_pos hc9]
        exact ih h (r + 1) 0 count (by omega) (by omega) ok g count1 hwf hval
      · rw [if_neg hc9] at hval
        rw [if_neg hc9]
        rw [Heap.read_eq_get h bd r c (by omega) (by omega)]
        by_cases h0 : (h.grid bd).get r c ≠ 0
        · rw [if_pos h0] at hval
          rw [if_pos h0]
          exact ih h r (c + 1) count hr (by omega) ok g count1 hwf hval
        · rw [if_neg h0] at hval
          rw [if_neg h0]
          exact solveRefLoop_sim _ _ bd r c
            (fun h2 cnt ok2 g2 cnt2 hwf2 hv2 =>
              ih h2 r (c + 1) cnt hr (by omega) ok2 g2 cnt2 hwf2 hv2)
            _ h count ok g count1 hwf hval

theorem Heap.copyBoard_holds (h : Heap) (board : BoardRef) (hlen : board.length = 9)
    (hrows : ∀ a ∈ board, a < h.length ∧ (h.getD a []).length = 9) :
    (h.copyBoard board).1.HoldsBoard (h.copyBoard board).2 ∧
    (h.copyBoard board).1.grid (h.copyBoard board).2 = h.grid board ∧
    (∀ a < h.length, a ∉ (h.copyBoard board).2 ∧
      (h.copyBoard board).1.getD a [] = h.getD a []) := by
  unfold Heap.copyBoard
  simp only
  have hcopy : ∀ i, i < 9 →
      (h ++ board.map (fun a => h.getD a [])).getD (h.length + i) [] =
        h.getD (board.getD i 0) [] := by
    intro i hi
    have hil : i < board.length := by omega
    simp [List.getD_eq_getElem?_getD, List.getElem?_append_right, List.getElem?_eq_getElem hil]
  refine ⟨⟨by simp [hlen], List.nodup_range' _ _, ?_⟩, ?_, ?_⟩
  · intro a ha
    rw [List.mem_range'_1] at ha
    refine ⟨by simp; omega, ?_⟩
    have e : a = h.length + (a - h.length) := by omega
    rw [e, hcopy _ (by omega)]
    have hil : a - h.length < board.length := by omega
    rw [List.getD_eq_getElem _ _ hil]
    exact (hrows _ (List.getElem_mem hil)).2
  · funext i j
    have hil : i.val < board.length := by have := i.isLt; omega
    simp only [Heap.grid, Heap.read]
    rw [List.getElem?_range' _ _ (by rw [hlen]; exact i.isLt), List.getElem?_eq_getElem hil]
    simp only
    have := hcopy i.val i.isLt
    rw [List.getD_eq_getElem _ _ hil] at this
    simpa using congrArg (fun row => row.getD j.val 0) this
  · intro a ha
    refine ⟨by rw [List.mem_range'_1]; omega, ?_⟩
    simp [List.getD_eq_getElem?_getD, List.getElem?_append_left ha]

/-! ## The claims about the checkers -/

/-- C5: for a 9x9 grid, a cell `(row, col)` and a value, `isSafe` returns false
exactly when the value occurs in some cell of row `row`, of column `col`, or of the
3x3 box containing `(row, col)`, and returns true otherwise. -/
theorem isSafe_false_iff_occurs (grid : Grid) (row col : Fin 9) (value : Nat) :
    (isSafe grid row col value = false ↔
      ((∃ j : Fin 9, grid row j = value) ∨ (∃ i : Fin 9, grid i col = value) ∨
        (∃ i j : Fin 9, i.val / 3 = row.val / 3 ∧ j.val / 3 = col.val / 3 ∧
          grid i j = value))) ∧
    (isSafe grid row col value = true ↔
      ¬ ((∃ j : Fin 9, grid row j = value) ∨ (∃ i : Fin 9, grid i col = value) ∨
        (∃ i j : Fin 9, i.val / 3 = row.val / 3 ∧ j.val / 3 = col.val / 3 ∧
          grid i j = value))) := by
  have key : isSafe grid row col value = true ↔
      ¬ ((∃ j : Fin 9, grid row j = value) ∨ (∃ i : Fin 9, grid i col = value) ∨
        (∃ i j : Fin 9, i.val / 3 = row.val / 3 ∧ j.val / 3 = col.val / 3 ∧
          grid i j = value)) := by
    rw [isSafe_iff_fin]
    constructor
    · intro h hcon
      rcases hcon with ⟨j, hj⟩ | ⟨i, hi⟩ | ⟨i, j, h1, h2, h3⟩
      · exact h row j (Or.inl rfl) hj
      · exact h i col (Or.inr (Or.inl rfl)) hi
      · exact h i j (Or.inr (Or.inr ⟨h1, h2⟩)) h3
    · intro h i j hu e
      apply h
      rcases hu with h1 | h1 | h1
      · exact Or.inl ⟨j, by rw [← Fin.ext h1]; exact e⟩
      · exact Or.inr (Or.inl ⟨i, by rw [← Fin.ext h1]; exact e⟩)
      · exact Or.inr (Or.inr ⟨i, j, h1.1, h1.2, e⟩)
  refine ⟨?_, key⟩
  rw [← not_iff_not, Bool.not_eq_false]
  exact key

/-- C6: for a value in `1..9`, `isValidEntry` gives what `isSafe` gives on the grid
with cell `(row, col)` set to 0; that is, it is true exactly when no cell other
than `(row, col)` in the same row, column or 3x3 box holds the value. -/
theorem isValidEntry_eq_isSafe_cleared (grid : Grid) (row col : Fin 9) (value : Nat)
    (hlo : 1 ≤ value) (_hhi : value ≤ 9) :
    isValidEntry grid row col value = isSafe (grid.set row col 0) row col value ∧
    (isValidEntry grid row col value = true ↔
      ∀ i j : Fin 9, (i ≠ row ∨ j ≠ col) →
        (i = row ∨ j = col ∨ (i.val / 3 = row.val / 3 ∧ j.val / 3 = col.val / 3)) →
        grid i j ≠ value) := by
  have key : isValidEntry grid row col value = true ↔
      ∀ i j : Fin 9, (i ≠ row ∨ j ≠ col) →
        (i = row ∨ j = col ∨ (i.val / 3 = row.val / 3 ∧ j.val / 3 = col.val / 3)) →
        grid i j ≠ value := by
    rw [isValidEntry_iff_fin]
    constructor
    · intro h i j hne hu
      apply h i j _ hne
      rcases hu with h1 | h1 | h1
      · exact Or.inl (congrArg Fin.val h1)
      · exact Or.inr (Or.inl (congrArg Fin.val h1))
      · exact Or.inr (Or.inr h1)
    · intro h i j hu hne
      apply h i j hne
      rcases hu with h1 | h1 | h1
      · exact Or.inl (Fin.ext h1)
      · exact Or.inr (Or.inl (Fin.ext h1))
      · exact Or.inr (Or.inr h1)
  refine ⟨?_, key⟩
  rw [Bool.eq_iff_iff, isValidEntry_iff_fin, isSafe_iff_fin]
  constructor
  · intro h i j hu
    by_cases e : i.val = row.val ∧ j.val = col.val
    · simp only [Grid.set, e, and_self, if_true]
      omega
    · simp only [Grid.set, e, if_false]
      apply h i j hu
      by_contra hcon
      push_neg at hcon
      exact e ⟨congrArg Fin.val hcon.1, congrArg Fin.val hcon.2⟩
  · intro h i j hu hne
    have e : ¬ (i.val = row.val ∧ j.val = col.val) := by
      rintro ⟨a, b⟩
      rcases hne with hne | hne
      · exact hne (Fin.ext a)
      · exact hne (Fin.ext b)
    have := h i j hu
    simpa only [Grid.set, e, if_false] using this

theorem isValidEntry_eq_isSafe_cleared_witness :
    isValidEntry sampleSolved (0 : Fin 9) (0 : Fin 9) 1 =
      isSafe (sampleSolved.set (0 : Fin 9) (0 : Fin 9) 0) (0 : Fin 9) (0 : Fin 9) 1 :=
  (isValidEntry_eq_isSafe_cleared sampleSolved 0 0 1 (by decide) (by decide)).1

theorem sameUnit_perm_rows (p : Equiv.Perm (Fin 9))
    (hband : ∀ r : Fin 9, (p r).val / 3 = r.val / 3) (r c i j : Fin 9) :
    sameUnit (p r) c (p i) j ↔ sameUnit r c i j := by
  unfold sameUnit
  rw [hband, hband]
  constructor
  · rintro (h | h | h)
    · exact Or.inl (congrArg Fin.val (p.injective (Fin.ext h)))
    · exact Or.inr (Or.inl h)
    · exact Or.inr (Or.inr h)
  · rintro (h | h | h)
    · exact Or.inl (by rw [Fin.ext h])
    · exact Or.inr (Or.inl h)
    · exact Or.inr (Or.inr h)

theorem sameUnit_perm_cols (p : Equiv.Perm (Fin 9))
    (hband : ∀ c : Fin 9, (p c).val / 3 = c.val / 3) (r c i j : Fin 9) :
    sameUnit r (p c) i (p j) ↔ sameUnit r c i j := by
  unfold sameUnit
  rw [hband, hband]
  constructor
  · rintro (h | h | h)
    · exact Or.inl h
    · exact Or.inr (Or.inl (congrArg Fin.val (p.injective (Fin.ext h))))
    · exact Or.inr (Or.inr h)
  · rintro (h | h | h)
    · exact Or.inl h
    · exact Or.inr (Or.inl (by rw [Fin.ext h]))
    · exact Or.inr (Or.inr h)

/-- C7: legality is invariant under relabelling rows inside a band or columns
inside a stack.  For a permutation `p` of `0..8` that keeps every index in its
group of three, `isSafe` and `isValidEntry` give for the cell `(p r, c)` of the
row-permuted grid what they give for `(r, c)` of the grid, and likewise for
`(r, p c)` of the column-permuted grid. -/
theorem legality_invariant_under_band_perm (g : Grid) (p : Equiv.Perm (Fin 9))
    (hband : ∀ x : Fin 9, (p x).val / 3 = x.val / 3) (r c : Fin 9) (v : Nat) :
    isSafe (permuteRows p g) (p r) c v = isSafe g r c v ∧
    isValidEntry (permuteRows p g) (p r) c v = isValidEntry g r c v ∧
    isSafe (permuteCols p g) r (p c) v = isSafe g r c v ∧
    isValidEntry (permuteCols p g) r (p c) v = isValidEntry g r c v := by
  refine ⟨?_, ?_, ?_, ?_⟩
  · rw [Bool.eq_iff_iff, isSafe_iff_fin, isSafe_iff_fin]
    constructor
    · intro h i j hu
      have := h (p i) j ((sameUnit_perm_rows p hband r c i j).2 hu)
      simpa [permuteRows] using this
    · intro h i j hu
      have hu2 : sameUnit r c (p.symm i) j := by
        rw [← sameUnit_perm_rows p hband]; simpa using hu
      exact h (p.symm i) j hu2
  · rw [Bool.eq_iff_iff, isValidEntry_iff_fin, isValidEntry_iff_fin]
    constructor
    · intro h i j hu hne
      have := h (p i) j ((sameUnit_perm_rows p hband r c i j).2 hu) (by
        rcases hne with hne | hne
        · exact Or.inl (fun e => hne (p.injective e))
        · exact Or.inr hne)
      simpa [permuteRows] using this
    · intro h i j hu hne
      have hu2 : sameUnit r c (p.symm i) j := by
        rw [← sameUnit_perm_rows p hband]; simpa using hu
      refine h (p.symm i) j hu2 ?_
      rcases hne with hne | hne
      · exact Or.inl (fun e => hne (by rw [← e]; simp))
      · exact Or.inr hne
  · rw [Bool.eq_iff_iff, isSafe_iff_fin, isSafe_iff_fin]
    constructor
    · intro h i j hu
      have := h i (p j) ((sameUnit_perm_cols p hband r c i j).2 hu)
      simpa [permuteCols] using this
    · intro h i j hu
      have hu2 : sameUnit r c i (p.symm j) := by
        rw [← sameUnit_perm_cols p hband]; simpa using hu
      exact h i (p.symm j) hu2
  · rw [Bool.eq_iff_iff, isValidEntry_iff_fin, isValidEntry_iff_fin]
    constructor
    · intro h i j hu hne
      have := h i (p j) ((sameUnit_perm_cols p hband r c i j).2 hu) (by
        rcases hne with hne | hne
        · exact Or.inl hne
        · exact Or.inr (fun e => hne (p.injective e)))
      simpa [permuteCols] using this
    · intro h i j hu hne
      have hu2 : sameUnit r c i (p.symm j) := by
        rw [← sameUnit_perm_cols p hband]; simpa using hu
      refine h i (p.symm j) hu2 ?_
      rcases hne with hne | hne
      · exact Or.inl hne
      · exact Or.inr (fun e => hne (by rw [← e]; simp))

theorem legality_invariant_under_band_perm_witness :
    (∀ x : Fin 9, ((Equiv.swap (0 : Fin 9) 1) x).val / 3 = x.val / 3) ∧
    isSafe (permuteRows (Equiv.swap (0 : Fin 9) 1) sampleSolved)
      ((Equiv.swap (0 : Fin 9) 1) 0) (2 : Fin 9) 5 = isSafe sampleSolved (0 : Fin 9) (2 : Fin 9) 5 :=
  ⟨by decide,
   (legality_invariant_under_band_perm sampleSolved (Equiv.swap (0 : Fin 9) 1) (by decide)
      0 2 5).1⟩

/-! ## The claims about the uniqueness counter -/

/-- C4 (as the code behaves): for every 9x9 grid with entries in `0..9` whose
nonzero cells repeat no value within a row, column or 3x3 box, `hasUniqueSolution`
returns true exactly when exactly one rule-valid complete grid agrees with the
grid on its nonzero cells; in particular it returns false for such a grid with no
rule-valid completion. -/
theorem hasUniqueSolution_iff_unique_completion (grid : Grid)
    (hrange : ∀ r c : Fin 9, grid r c ≤ 9) (hcons : Consistent grid) :
    (hasUniqueSolution grid = some true ↔ ∃! G, Valid G ∧ Agrees grid G) ∧
    ((¬ ∃ G, Valid G ∧ Agrees grid G) → hasUniqueSolution grid = some false) := by
  refine ⟨hasUniqueSolution_iff_valid grid hrange hcons, ?_⟩
  intro h
  rw [hasUniqueSolution_eq]
  have : sols 81 grid = [] := by
    apply List.eq_nil_iff_forall_not_mem.2
    intro G hG
    rw [mem_sols 81 (by omega), Nat.sub_self, fills_iff_valid grid G hrange hcons] at hG
    exact h ⟨G, hG⟩
  simp [this]

theorem hasUniqueSolution_iff_unique_completion_witness :
    hasUniqueSolution (sampleSolved.set 0 0 0) = some true ↔
      ∃! G, Valid G ∧ Agrees (sampleSolved.set 0 0 0) G :=
  (hasUniqueSolution_iff_unique_completion (sampleSolved.set 0 0 0) (by decide)
    (consistent_of_agrees _ sampleSolved (by decide) (by decide))).1

/-- C4 fails as stated: the grid of all ones has entries in `0..9` and no
rule-valid completion, yet `hasUniqueSolution` returns true on it. -/
theorem hasUniqueSolution_true_without_completion :
    (∀ r c : Fin 9, allOnes r c ≤ 9) ∧
    hasUniqueSolution allOnes = some true ∧
    ¬ ∃ G, Valid G ∧ Agrees allOnes G := by
  refine ⟨by decide, by decide, ?_⟩
  rintro ⟨G, hv, hag⟩
  have h1 := hag 0 0 (by decide)
  have h2 := hag 0 1 (by decide)
  have := ((valid_iff G).1 hv).2 0 0 0 1 (Or.inl rfl) (Or.inr (by decide))
  rw [h1, h2] at this
  exact this rfl

/-- C10: for a 9x9 grid with entries in `0..9` whose nonzero cells repeat no value
within a row, column or 3x3 box, `hasUniqueSolution` returns true exactly when
exactly one rule-valid complete grid agrees with it on its nonzero cells.  The
givens are never re-checked by `solve`: what it counts, on any grid, are the grids
that keep the givens and fill the empty cells with values of `1..9` that occur
nowhere else in their row, column or box. -/
theorem hasUniqueSolution_iff_of_consistent (grid : Grid)
    (hrange : ∀ r c : Fin 9, grid r c ≤ 9) (hcons : Consistent grid) :
    (hasUniqueSolution grid = some true ↔ ∃! G, Valid G ∧ Agrees grid G) ∧
    (hasUniqueSolution grid = some true ↔ ∃! G, Completes grid G) := by
  refine ⟨hasUniqueSolution_iff_valid grid hrange hcons, ?_⟩
  rw [hasUniqueSolution_iff]
  simp only [fills_zero_iff]

/-- C8: a grid with exactly one empty cell, every other cell in `1..9`, at which
two different values in `1..9` pass `isSafe`, is reported as not unique: the
counter of `solve` reaches 2, `solve` returns false, and so does
`hasUniqueSolution`. -/
theorem hasUniqueSolution_false_of_two_candidates (grid : Grid) (r0 c0 : Fin 9)
    (hempty : grid r0 c0 = 0)
    (hfull : ∀ r c : Fin 9, (r ≠ r0 ∨ c ≠ c0) → 1 ≤ grid r c ∧ grid r c ≤ 9)
    (v1 v2 : Nat) (h1 : 1 ≤ v1 ∧ v1 ≤ 9) (h2 : 1 ≤ v2 ∧ v2 ≤ 9) (hne : v1 ≠ v2)
    (hs1 : isSafe grid r0 c0 v1 = true) (hs2 : isSafe grid r0 c0 v2 = true) :
    solve 91 grid.copy 0 0 0 = some (false, grid, 2) ∧
    hasUniqueSolution grid = some false := by
  have hfill : ∀ v, (1 ≤ v ∧ v ≤ 9) → isSafe grid r0 c0 v = true →
      grid.set r0 c0 v ∈ sols 81 grid := by
    intro v hv hs
    rw [mem_sols 81 (by omega), Nat.sub_self, fills_zero_iff]
    rw [isSafe_iff_fin] at hs
    refine ⟨?_, ?_, ?_⟩
    · intro r c hz
      have e : ¬ (r.val = r0.val ∧ c.val = c0.val) := by
        rintro ⟨a, b⟩
        rw [Fin.ext a, Fin.ext b] at hz
        exact hz hempty
      simp only [Grid.set, e, if_false]
    · intro r c hz
      by_cases e : r.val = r0.val ∧ c.val = c0.val
      · simp only [Grid.set, e, and_self, if_true]; exact hv
      · have := hfull r c (by
          by_contra hcon
          push_neg at hcon
          exact e ⟨congrArg Fin.val hcon.1, congrArg Fin.val hcon.2⟩)
        omega
    · intro r c i j hz hu hij
      have e : r.val = r0.val ∧ c.val = c0.val := by
        by_contra e
        have := hfull r c (by
          by_contra hcon
          push_neg at hcon
          exact e ⟨congrArg Fin.val hcon.1, congrArg Fin.val hcon.2⟩)
        omega
      have er : r = r0 := Fin.ext e.1
      have ec : c = c0 := Fin.ext e.2
      subst er ec
      have e2 : ¬ (i.val = r.val ∧ j.val = c.val) := by
        rintro ⟨a, b⟩
        rcases hij with hij | hij
        · exact hij (Fin.ext a)
        · exact hij (Fin.ext b)
      simp only [Grid.set, e2, if_false, and_self, if_true]
      exact hs i j hu
  have hdiff : grid.set r0 c0 v1 ≠ grid.set r0 c0 v2 := by
    intro e
    have := congrFun (congrFun e r0) c0
    simp [Grid.set] at this
    exact hne this
  have hlen := two_le_length_of_mem _ _ _ (hfill v1 h1 hs1) (hfill v2 h2 hs2) hdiff
  have hsolve := solve_spec 91 grid 0 0 0 (by omega) (by omega) (by omega) (by omega)
    (by omega)
  simp only [Nat.zero_add, Nat.mul_zero, Nat.sub_zero] at hsolve
  have hmin : min (sols 81 grid).length 2 = 2 := by omega
  have hnlt : ¬ ((sols 81 grid).length < 2) := by omega
  rw [hmin] at hsolve
  simp only [hnlt, decide_False] at hsolve
  refine ⟨by rw [Grid.copy_eq]; exact hsolve, ?_⟩
  unfold hasUniqueSolution
  rw [Grid.copy_eq, hsolve]
  rfl

theorem hasUniqueSolution_false_of_two_candidates_witness :
    twoCandidates (0 : Fin 9) (0 : Fin 9) = 0 ∧
    isSafe twoCandidates (0 : Fin 9) (0 : Fin 9) 1 = true ∧
    isSafe twoCandidates (0 : Fin 9) (0 : Fin 9) 2 = true ∧
    hasUniqueSolution twoCandidates = some false :=
  ⟨by decide, by decide, by decide,
   (hasUniqueSolution_false_of_two_candidates twoCandidates 0 0 (by decide) (by decide)
      1 2 (by decide) (by decide) (by decide) (by decide) (by decide)).2⟩

theorem hasUniqueSolution_iff_of_consistent_witness :
    hasUniqueSolution (sampleSolved.set 8 8 0) = some true ↔
      ∃! G, Valid G ∧ Agrees (sampleSolved.set 8 8 0) G :=
  (hasUniqueSolution_iff_of_consistent (sampleSolved.set 8 8 0) (by decide)
    (consistent_of_agrees _ sampleSolved (by decide) (by decide))).1

/-! ## The claim about the generator -/

/-- C1: for every outcome of the random draws, `generateFullBoard` returns, and
the grid it returns has each of 1..9 exactly once in every row, column and 3x3
box; equivalently `fillBoard` started on the all-zero board at `(0, 0)` returns
true and leaves such a grid, whatever depth of at least 91 calls is allowed. -/
theorem generateFullBoard_valid (rand : Nat → Nat) :
    (∃ g, generateFullBoard rand = some g ∧ Valid g) ∧
    (∀ fuel, 91 ≤ fuel →
      ∃ g n, fillBoard rand fuel emptyBoard 0 0 0 = some (true, g, n) ∧ Valid g) := by
  have hsample : sampleSolved ∈ sols 81 emptyBoard := by
    rw [mem_sols 81 (by omega), Nat.sub_self,
      fills_iff_valid emptyBoard _ (by decide) (by intro r c i j _ _ h; exact absurd rfl h)]
    exact ⟨by decide, by intro r c h; exact absurd rfl h⟩
  have key : ∀ fuel, 91 ≤ fuel →
      ∃ g n, fillBoard rand fuel emptyBoard 0 0 0 = some (true, g, n) ∧ Valid g := by
    intro fuel hfuel
    obtain ⟨ok, b1, n1, hcall, htrue, hfalse⟩ :=
      fillBoard_spec rand fuel emptyBoard 0 0 0 (by omega) (by omega) (by omega) (by omega)
        (fun _ _ _ => rfl)
    simp only [Nat.mul_zero, Nat.add_zero, Nat.sub_zero] at htrue hfalse
    cases ok with
    | false =>
      have := (hfalse rfl).2
      rw [this] at hsample
      simp at hsample
    | true =>
      refine ⟨b1, n1, hcall, ?_⟩
      have := htrue rfl
      rw [mem_sols 81 (by omega), Nat.sub_self,
        fills_iff_valid emptyBoard _ (by decide)
          (by intro r c i j _ _ h; exact absurd rfl h)] at this
      exact this.1
  refine ⟨?_, key⟩
  obtain ⟨g, n, hcall, hv⟩ := key 91 (by omega)
  exact ⟨g, by unfold generateFullBoard; rw [hcall]; rfl, hv⟩

/-- C9: `hasUniqueSolution` never changes the grid it is given.  For a store of
row arrays and a board of nine rows of length 9 in it, the call returns a boolean,
the one the search on the values of the board gives, and every row array that
existed before the call, so every cell of the board of the caller, holds after
the call what it held before, whether the result is true or the search was
cut short with the counter at 2. -/
theorem hasUniqueSolution_keeps_board (h : Heap) (board : BoardRef)
    (hlen : board.length = 9)
    (hrows : ∀ a ∈ board, a < h.length ∧ (h.getD a []).length = 9) :
    ∃ b h1, hasUniqueSolutionRef h board = some (b, h1) ∧
      hasUniqueSolution (h.grid board) = some b ∧
      (∀ a < h.length, h1.getD a [] = h.getD a []) ∧
      (∀ r c, h1.read board r c = h.read board r c) := by
  obtain ⟨hwf, hgrid, hold⟩ := Heap.copyBoard_holds h board hlen hrows
  have hsolve := solve_spec 91 (h.grid board) 0 0 0 (by omega) (by omega) (by omega)
    (by omega) (by omega)
  obtain ⟨h1, hcall, -, -, hout⟩ := solveRef_sim 91 (h.copyBoard board).2
    (h.copyBoard board).1 0 0 0 (by omega) (by omega) _ _ _ hwf (by rw [hgrid]; exact hsolve)
  have hkeep : ∀ a < h.length, h1.getD a [] = h.getD a [] := by
    intro a ha
    rw [hout.2 a (hold a ha).1, (hold a ha).2]
  refine ⟨_, h1, by unfold hasUniqueSolutionRef; rw [hcall]; rfl, ?_, hkeep, ?_⟩
  · unfold hasUniqueSolution
    rw [Grid.copy_eq, hsolve]
    rfl
  · intro r c
    unfold Heap.read
    cases hb : board[r]? with
    | none => rfl
    | some a =>
      have ha : a ∈ board := List.getElem?_mem hb
      simp only
      rw [hkeep a (hrows a ha).1]

theorem hasUniqueSolution_keeps_board_witness :
    ∃ b h1, hasUniqueSolutionRef sampleHeap [0, 1, 2, 3, 4, 5, 6, 7, 8] = some (b, h1) ∧
      hasUniqueSolution (sampleHeap.grid [0, 1, 2, 3, 4, 5, 6, 7, 8]) = some b ∧
      (∀ a < sampleHeap.length, h1.getD a [] = sampleHeap.getD a []) ∧
      (∀ r c, h1.read [0, 1, 2, 3, 4, 5, 6, 7, 8] r c =
        sampleHeap.read [0, 1, 2, 3, 4, 5, 6, 7, 8] r c) :=
  hasUniqueSolution_keeps_board sampleHeap [0, 1, 2, 3, 4, 5, 6, 7, 8] (by decide) (by decide)

/-! ## The claims about the reducer -/

/-- C3: for a complete grid `fullBoard` (all 81 cells nonzero), a clue count
`k <= 81` and a sequence of random picks of cells, at every loop head of
`generatePuzzle` the number of nonzero cells of the puzzle equals `k` plus the
remaining-removals counter, and when the loop exits on these picks the returned
puzzle has exactly `k` nonzero cells. -/
theorem generatePuzzle_clue_count (fullBoard : Grid) (k : Nat) (picks : List (Nat × Nat))
    (hfull : ∀ r c : Fin 9, fullBoard r c ≠ 0) (hk : k ≤ 81)
    (hpicks : ∀ pick ∈ picks, pick.1 < 9 ∧ pick.2 < 9) :
    (∀ puzzle removed, puzzleRun picks fullBoard.copy (81 - k) = some (puzzle, removed) →
      nonzeroCount puzzle = k + removed) ∧
    (∀ puzzle, generatePuzzle fullBoard k picks = some puzzle → nonzeroCount puzzle = k) := by
  have inv : ∀ puzzle removed, puzzleRun picks fullBoard (81 - k) = some (puzzle, removed) →
      nonzeroCount puzzle = k + removed := by
    intro puzzle removed hrun
    refine puzzleRun_invariant (fun p r => nonzeroCount p = k + r) ?_ picks hpicks
      fullBoard (81 - k) ?_ puzzle removed hrun
    · intro p r i j hi hj hpos hP hne _
      have hne2 : p ⟨i, hi⟩ ⟨j, hj⟩ ≠ 0 := by rwa [Grid.get_of_lt p hi hj] at hne
      have := nonzeroCount_set_zero p ⟨i, hi⟩ ⟨j, hj⟩ hne2
      simp only at this hP
      show nonzeroCount (p.set i j 0) = k + (r - 1)
      omega
    · show nonzeroCount fullBoard = k + (81 - k)
      rw [nonzeroCount_full fullBoard hfull]; omega
  refine ⟨fun puzzle removed h => inv puzzle removed (by rwa [Grid.copy_eq] at h), ?_⟩
  intro puzzle h
  have := inv puzzle 0 (generatePuzzle_eq_some _ _ _ _ h)
  omega

theorem generatePuzzle_clue_count_witness :
    ∃ puzzle, generatePuzzle sampleSolved 80 [(4, 4), (0, 0)] = some puzzle ∧
      nonzeroCount puzzle = 80 :=
  have h : (generatePuzzle sampleSolved 80 [(4, 4), (0, 0)]).isSome = true := by decide
  ⟨_, (Option.some_get h).symm,
    (generatePuzzle_clue_count sampleSolved 80 [(4, 4), (0, 0)] (by decide) (by decide)
      (by decide)).2 _ (Option.some_get h).symm⟩

/-- C2: for a complete rule-valid grid `solvedGrid`, a clue count `k <= 81` and a
sequence of random picks on which the loop of `generatePuzzle` exits, the returned
puzzle agrees with `solvedGrid` on every nonzero cell, `hasUniqueSolution` returns
true on it, and `solvedGrid` is the only rule-valid complete grid that agrees with
the puzzle on its nonzero cells; for `k = 81` the result is `solvedGrid` itself. -/
theorem generatePuzzle_unique (solvedGrid : Grid) (k : Nat) (picks : List (Nat × Nat))
    (hvalid : Valid solvedGrid) (hk : k ≤ 81)
    (hpicks : ∀ pick ∈ picks, pick.1 < 9 ∧ pick.2 < 9) :
    (∀ puzzle, generatePuzzle solvedGrid k picks = some puzzle →
      Agrees puzzle solvedGrid ∧ hasUniqueSolution puzzle = some true ∧
      (∀ G, Valid G → Agrees puzzle G → G = solvedGrid)) ∧
    (k = 81 → generatePuzzle solvedGrid k picks = some solvedGrid) := by
  constructor
  · intro puzzle h
    have hrun := generatePuzzle_eq_some _ _ _ _ h
    have inv : Agrees puzzle solvedGrid ∧ hasUniqueSolution puzzle = some true := by
      refine puzzleRun_invariant
        (fun p _ => Agrees p solvedGrid ∧ hasUniqueSolution p = some true) ?_ picks hpicks
        solvedGrid (81 - k) ?_ puzzle 0 hrun
      · intro p r i j _ _ _ hP _ hu
        refine ⟨?_, hu⟩
        intro a b hab
        by_cases e : a.val = i ∧ b.val = j
        · simp [Grid.set, e] at hab
        · simp only [Grid.set, e, if_false] at hab ⊢
          exact hP.1 a b hab
      · exact ⟨fun _ _ _ => rfl, hasUniqueSolution_full solvedGrid (valid_nonzero _ hvalid)⟩
    refine ⟨inv.1, inv.2, ?_⟩
    intro G hG hag
    have hrange : ∀ r c : Fin 9, puzzle r c ≤ 9 := by
      intro r c
      by_cases hz : puzzle r c = 0
      · omega
      · rw [← inv.1 r c hz]
        exact (((valid_iff solvedGrid).1 hvalid).1 r c).2
    have huniq := (hasUniqueSolution_iff_valid puzzle hrange
      (consistent_of_agrees puzzle solvedGrid hvalid inv.1)).1 inv.2
    exact huniq.unique ⟨hG, hag⟩ ⟨hvalid, inv.1⟩
  · intro hk81
    subst hk81
    unfold generatePuzzle
    rw [Grid.copy_eq]
    cases picks with
    | nil => rfl
    | cons pick rest => rfl

theorem generatePuzzle_unique_witness :
    ∃ puzzle, generatePuzzle sampleSolved 79 [(0, 0), (0, 0), (8, 8)] = some puzzle ∧
      hasUniqueSolution puzzle = some true :=
  have h : (generatePuzzle sampleSolved 79 [(0, 0), (0, 0), (8, 8)]).isSome = true := by
    decide
  ⟨_, (Option.some_get h).symm,
    ((generatePuzzle_unique sampleSolved 79 [(0, 0), (0, 0), (8, 8)] (by decide) (by decide)
      (by decide)).1 _ (Option.some_get h).symm).2.1⟩

end Sudoku
